import Mathlib

/-!
Verification of the suppression-filter pipeline in `csv-cleaner-app.py`.

Shallow embedding conventions:
* a pandas cell value (under `dtype=str`) is `Option String`; `none` is NaN
  (a missing field), `some s` is the string `s`;
* a DataFrame is a `Frame`: an ordered list of column names plus rows, each
  row a list of values positionally aligned with the columns (pandas frames
  produced by `read_csv` have pairwise distinct, mangled column names, so
  label lookup is first-index lookup);
* a Python `set` of normalized identifiers is a `List (Option String)` used
  only through membership (`pd.Series.isin` matches null entries of the
  series against a null element of the value set, which `List.contains` on
  `Option String` mirrors);
* the external public-suffix dependency `tldextract.extract` is a parameter
  `tld : String → TldExtractResult` of every definition that needs it.
-/

set_option autoImplicit false

abbrev Value := Option String

/-- A pandas DataFrame: ordered column names and rows of cell values. -/
structure Frame where
  cols : List String
  rows : List (List Value)
deriving DecidableEq

/-- Python's `pat in s` substring test (on lower-cased names in this app). -/
def hasSub (s pat : String) : Bool := decide (List.IsInfix pat.data s.data)

/-- Python's `str.lower()` (character-wise, kernel-reducible). -/
def pyLower (s : String) : String := String.mk (s.data.map Char.toLower)

/-- Python's `str.strip()`: drop leading and trailing whitespace. -/
def pyStrip (s : String) : String :=
  String.mk (((s.data.dropWhile Char.isWhitespace).reverse.dropWhile Char.isWhitespace).reverse)

/-- Python's `str.startswith(pat)` (kernel-reducible). -/
def pyStartsWith (s pat : String) : Bool := List.isPrefixOf pat.data s.data

/-- Result of `tldextract.extract`. -/
structure TldExtractResult where
  subdomain : String
  domain : String
  suffix : String
deriving DecidableEq

/-- `clean_email`: `None` for NaN, else `str(email).strip().lower()` with all
whitespace removed (`re.sub(r"\s+", "", e)`). -/
def clean_email : Value → Value
  | none => none
  | some s => some (String.mk ((pyLower (pyStrip s)).data.filter (fun c => !c.isWhitespace)))

/-- `clean_phone`: `None` for NaN, else `re.sub(r"\D", "", str(phone))`,
i.e. keep only the digits (the empty string when there are none). -/
def clean_phone : Value → Value
  | none => none
  | some s => some (String.mk (s.data.filter (fun c => c.isDigit)))

/-- `clean_domain`: `None` for NaN, else extract on the trimmed lower-cased
value; `None` when the extracted domain label is empty, otherwise
`f"{ext.domain}.{ext.suffix}"`. -/
def clean_domain (tld : String → TldExtractResult) : Value → Value
  | none => none
  | some s =>
    let ext := tld (pyLower (pyStrip s))
    if ext.domain = "" then none else some (ext.domain ++ "." ++ ext.suffix)

/-- The `re.sub(r"^email[:\-]*", "", e)` step of `normalize_suppression_email`:
if the string starts with `email`, drop that prefix and every following
`:` or `-` character. -/
def stripEmailTag (s : String) : String :=
  if pyStartsWith s "email" then
    String.mk ((s.data.drop 5).dropWhile (fun c => c = ':' || c = '-'))
  else s

/-- `normalize_suppression_email`: `None` for NaN, else strip/lower, remove
all double quotes, single quotes and whitespace, then strip a leading
`email[:-]*` tag. -/
def normalize_suppression_email : Value → Value
  | none => none
  | some s =>
    let e := pyLower (pyStrip s)
    let e := String.mk (e.data.filter (fun c => !(c = '"' || c = '\'' || c.isWhitespace)))
    some (stripEmailTag e)

/-- Index of the first column with the given name (pandas label lookup for
the duplicate-free frames `read_csv` produces). -/
def colIdx (cols : List String) (c : String) : Option Nat :=
  match cols with
  | [] => none
  | x :: rest => if x = c then some 0 else (colIdx rest c).map (fun i => i + 1)

/-- Value of column `c` in a row (the series entry for this row). -/
def rowGet (cols : List String) (r : List Value) (c : String) : Value :=
  match colIdx cols c with
  | some i => r.getD i none
  | none => none

/-- `find_col(df, patterns)`: the first column whose lower-cased name
contains one of the patterns. -/
def find_col (cols : List String) (pats : List String) : Option String :=
  cols.find? (fun c => pats.any (fun p => hasSub (pyLower c) p))

/-- The email column list built in `clean_chunk`: the strict `find_col`
match first, then every fallback column containing `email`, without
duplicates. -/
def emailColsOf (cols : List String) : List String :=
  let strict := find_col cols ["email"]
  let fallback := cols.filter (fun c => hasSub (pyLower c) "email")
  let init := match strict with
    | some c => [c]
    | none => []
  fallback.foldl (fun acc c => if acc.contains c then acc else acc ++ [c]) init

/-- Columns whose lower-cased name contains `phone`. -/
def phoneColsOf (cols : List String) : List String :=
  cols.filter (fun c => hasSub (pyLower c) "phone")

/-- The domain name patterns of the app. -/
def domainPats : List String := ["domain", "website", "url"]

/-- Columns whose lower-cased name contains `domain`, `website` or `url`. -/
def domainColsOf (cols : List String) : List String :=
  cols.filter (fun c => domainPats.any (fun p => hasSub (pyLower c) p))

/-- The three suppression sets. -/
structure Suppression where
  emails : List Value
  phones : List Value
  domains : List Value
deriving DecidableEq

/-- `df[scratch] = df[col].map(clean)`: overwrite the scratch column in
place when it exists, else append it as the last column. -/
def assignMapped (clean : Value → Value) (scratch : String) (df : Frame) (col : String) : Frame :=
  match colIdx df.cols scratch with
  | some i => ⟨df.cols, df.rows.map (fun r => r.set i (clean (rowGet df.cols r col)))⟩
  | none => ⟨df.cols ++ [scratch], df.rows.map (fun r => r ++ [clean (rowGet df.cols r col)])⟩

/-- One loop body of a category pass in `clean_chunk`: assign the normalized
scratch column, keep the rows whose scratch value is not in the set, and add
the number of dropped rows to the counter. -/
def passCol (clean : Value → Value) (scratch : String) (S : List Value)
    (st : Frame × Nat) (col : String) : Frame × Nat :=
  let df := assignMapped clean scratch st.1 col
  let kept := df.rows.filter (fun r => !(S.contains (rowGet df.cols r scratch)))
  (⟨df.cols, kept⟩, st.2 + (df.rows.length - kept.length))

/-- Whether a column name is dropped by the final
`df[[c for c in df.columns if not c.startswith("__")]]` selection. -/
def isScratchName (c : String) : Bool := pyStartsWith c "__"

/-- The final column selection of `clean_chunk`: keep only the columns whose
name does not start with `__`, projecting every row accordingly. -/
def dropScratch (df : Frame) : Frame :=
  ⟨df.cols.filter (fun c => !isScratchName c),
   df.rows.map (fun r => ((df.cols.zip r).filter (fun p => !isScratchName p.1)).map Prod.snd)⟩

/-- `clean_chunk(df, suppression)`: the email pass over the email columns,
the phone pass over the phone columns of the resulting frame, the domain
pass over its domain columns, then the scratch columns are discarded.
Returns the surviving frame and the three removal counters. -/
def clean_chunk (tld : String → TldExtractResult) (df : Frame) (sup : Suppression) :
    Frame × Nat × Nat × Nat :=
  let ecols := emailColsOf df.cols
  let st1 := ecols.foldl (passCol clean_email "__email" sup.emails) (df, 0)
  let pcols := phoneColsOf st1.1.cols
  let st2 := pcols.foldl (passCol clean_phone "__phone" sup.phones) (st1.1, 0)
  let dcols := domainColsOf st2.1.cols
  let st3 := dcols.foldl (passCol (clean_domain tld) "__domain" sup.domains) (st2.1, 0)
  (dropScratch st3.1, st1.2, st2.2, st3.2)

/-! ### Row-local reformulation of the category passes

`passCol` only ever maps a per-row transformation over the rows and filters
them by a per-row predicate, and the evolution of the column list does not
depend on the rows.  The following definitions express one whole category
pass as a single per-row partial function; `pass_fold` below proves the
fold of `passCol` equal to it. -/

/-- Column-list effect of one scratch assignment. -/
def stepCols (scratch : String) (cols : List String) : List String :=
  match colIdx cols scratch with
  | some _ => cols
  | none => cols ++ [scratch]

/-- Row effect of one scratch assignment. -/
def stepRow (clean : Value → Value) (scratch : String) (cols : List String)
    (col : String) (r : List Value) : List Value :=
  match colIdx cols scratch with
  | some i => r.set i (clean (rowGet cols r col))
  | none => r ++ [clean (rowGet cols r col)]

/-- One category pass applied to a single row: `none` when some column of
the pass eliminates the row, otherwise the transformed row. -/
def passRow (clean : Value → Value) (scratch : String) (S : List Value) :
    List String → List String → List Value → Option (List Value)
  | _, [], r => some r
  | cols, col :: L, r =>
    let cols' := stepCols scratch cols
    let r' := stepRow clean scratch cols col r
    if S.contains (rowGet cols' r' scratch) then none
    else passRow clean scratch S cols' L r'

/-- Column list after a whole category pass. -/
def passColsFinal (scratch : String) : List String → List String → List String
  | cols, [] => cols
  | cols, _ :: L => passColsFinal scratch (stepCols scratch cols) L

/-- The scratch extension a pass appends to the columns: nothing for an
empty pass, else the scratch name unless it is already present. -/
def extAfter (scratch : String) (ext : List String) (L : List String) : List String :=
  match L with
  | [] => ext
  | _ :: _ => if ext.contains scratch then ext else ext ++ [scratch]

/-- Per-row pipeline of the email pass of `clean_chunk`. -/
def rowE (sup : Suppression) (cols : List String) : List Value → Option (List Value) :=
  passRow clean_email "__email" sup.emails cols (emailColsOf cols)

/-- Columns after the email pass. -/
def colsAfterE (cols : List String) : List String :=
  passColsFinal "__email" cols (emailColsOf cols)

/-- Per-row pipeline of the phone pass of `clean_chunk`. -/
def rowP (sup : Suppression) (cols : List String) : List Value → Option (List Value) :=
  passRow clean_phone "__phone" sup.phones (colsAfterE cols) (phoneColsOf (colsAfterE cols))

/-- Columns after the phone pass. -/
def colsAfterP (cols : List String) : List String :=
  passColsFinal "__phone" (colsAfterE cols) (phoneColsOf (colsAfterE cols))

/-- Per-row pipeline of the domain pass of `clean_chunk`. -/
def rowD (tld : String → TldExtractResult) (sup : Suppression) (cols : List String) :
    List Value → Option (List Value) :=
  passRow (clean_domain tld) "__domain" sup.domains (colsAfterP cols) (domainColsOf (colsAfterP cols))

/-- Columns after the domain pass. -/
def colsAfterD (cols : List String) : List String :=
  passColsFinal "__domain" (colsAfterP cols) (domainColsOf (colsAfterP cols))

/-! ### Row-level hit predicates (spec-side, for frames without `__` columns) -/

/-- The row has, in some email-classified column, a value normalizing into
the email suppression set. -/
def emailHit (sup : Suppression) (cols : List String) (r : List Value) : Bool :=
  (emailColsOf cols).any (fun c => sup.emails.contains (clean_email (rowGet cols r c)))

/-- The row has, in some phone-classified column, a value normalizing into
the phone suppression set. -/
def phoneHit (sup : Suppression) (cols : List String) (r : List Value) : Bool :=
  (phoneColsOf cols).any (fun c => sup.phones.contains (clean_phone (rowGet cols r c)))

/-- The row has, in some domain-classified column, a value normalizing into
the domain suppression set. -/
def domainHit (tld : String → TldExtractResult) (sup : Suppression) (cols : List String)
    (r : List Value) : Bool :=
  (domainColsOf cols).any (fun c => sup.domains.contains (clean_domain tld (rowGet cols r c)))

/-- The row is hit by no category: it survives `clean_chunk`. -/
def survivesRow (tld : String → TldExtractResult) (sup : Suppression) (cols : List String)
    (r : List Value) : Bool :=
  !emailHit sup cols r && !phoneHit sup cols r && !domainHit tld sup cols r

/-! ### Suppression Set Builder (`load_suppression_data`) -/

/-- One uploaded reference file: its name and either its parsed frame or
`none` when `pd.read_csv` raises (the `nrows=200000` cap is part of the
parse and is inside the parsed frame). -/
structure SupFile where
  name : String
  parsed : Option Frame
deriving DecidableEq

/-- Column-name test of the builder's `if "email" in lc` branch. -/
def isEmailName (c : String) : Bool := hasSub (pyLower c) "email"

/-- Column-name test of the builder's `elif "phone" in lc` branch. -/
def isPhoneName (c : String) : Bool := hasSub (pyLower c) "phone"

/-- Column-name test of the builder's
`elif any(x in lc for x in ["domain", "website", "url"])` branch. -/
def isDomainName (c : String) : Bool := domainPats.any (fun p => hasSub (pyLower c) p)

/-- The series `df[c]` of a frame. -/
def colVals (df : Frame) (c : String) : List Value :=
  df.rows.map (fun r => rowGet df.cols r c)

/-- `df[c].dropna()`: the non-NaN values of the series. -/
def dropNA (l : List Value) : List String := l.filterMap id

/-- `df[c].dropna().map(normalize_suppression_email)` as added to the email
set (the results are values so that a `None` result would stay an element,
as Python's `set.update` keeps it). -/
def emailContrib (df : Frame) (c : String) : List Value :=
  (dropNA (colVals df c)).map (fun s => normalize_suppression_email (some s))

/-- `df[c].dropna().map(clean_phone)` as added to the phone set. -/
def phoneContrib (df : Frame) (c : String) : List Value :=
  (dropNA (colVals df c)).map (fun s => clean_phone (some s))

/-- `df[c].dropna().map(clean_domain)` as added to the domain set; a value
the extractor cannot classify contributes `none` to the set. -/
def domainContrib (tld : String → TldExtractResult) (df : Frame) (c : String) : List Value :=
  (dropNA (colVals df c)).map (fun s => clean_domain tld (some s))

/-- The column loop of `load_suppression_data` over one parsed frame: the
`if / elif / elif` chain sends each column to at most one category and
records the matched column names. -/
def loadColsStep (tld : String → TldExtractResult) (df : Frame)
    (st : Suppression × List String) (c : String) : Suppression × List String :=
  if isEmailName c then
    ({ st.1 with emails := st.1.emails ++ emailContrib df c }, st.2 ++ [c])
  else if isPhoneName c then
    ({ st.1 with phones := st.1.phones ++ phoneContrib df c }, st.2 ++ [c])
  else if isDomainName c then
    ({ st.1 with domains := st.1.domains ++ domainContrib tld df c }, st.2 ++ [c])
  else st

/-- `load_suppression_data(files)`: fold the column loop over every file
that parses, skip (with a diagnostic) every file that does not, and return
the three sets with the per-file log lines. -/
def load_suppression_data (tld : String → TldExtractResult) (files : List SupFile) :
    Suppression × List String :=
  files.foldl
    (fun acc f =>
      match f.parsed with
      | some df =>
        let res := df.cols.foldl (loadColsStep tld df) (acc.1, [])
        (res.1, acc.2 ++ ["ok " ++ f.name])
      | none => (acc.1, acc.2 ++ ["skip " ++ f.name]))
    (⟨[], [], []⟩, [])

/-! ### Streaming File Processor (`process_files`) -/

/-- The column identification loop of `process_files` (lines 188-192):
independent `if`s, so a name matching several categories is appended once
per matching category. -/
def identifyCols (cols : List String) : List String :=
  (cols.map (fun c =>
    (if isEmailName c then [c] else []) ++
    (if isPhoneName c then [c] else []) ++
    (if isDomainName c then [c] else []))).flatten

/-- Per-file mutable state of the chunk loop of `process_files`: the
`first_write` flag, how many header lines the output sink received, the
emitted surviving rows, `rows_before`, `cols_found`, and the three removal
totals. -/
structure FileState where
  firstWrite : Bool
  headers : Nat
  outRows : List (List Value)
  rowsBefore : Nat
  colsFound : List String
  remE : Nat
  remP : Nat
  remD : Nat
deriving DecidableEq

/-- State at the start of a file: nothing read, nothing written. -/
def initFileState : FileState := ⟨true, 0, [], 0, [], 0, 0, 0⟩

/-- One iteration of the chunk loop: count the chunk's rows, record the
identified columns, clean the chunk, accumulate the three counters, append
the survivors to the output (writing the header exactly when
`first_write`), and clear `first_write`. -/
def stepChunk (tld : String → TldExtractResult) (sup : Suppression) (cols : List String)
    (st : FileState) (ch : List (List Value)) : FileState :=
  let res := clean_chunk tld ⟨cols, ch⟩ sup
  { firstWrite := false
    headers := st.headers + (if st.firstWrite then 1 else 0)
    outRows := st.outRows ++ res.1.rows
    rowsBefore := st.rowsBefore + ch.length
    colsFound := st.colsFound ++ identifyCols cols
    remE := st.remE + res.2.1
    remP := st.remP + res.2.2.1
    remD := st.remD + res.2.2.2 }

/-- The chunk loop over an already fully parsed chunk sequence. -/
def runChunksOk (tld : String → TldExtractResult) (sup : Suppression) (cols : List String)
    (chunks : List (List (List Value))) (st : FileState) : FileState :=
  chunks.foldl (stepChunk tld sup cols) st

/-- The chunk loop over a chunk stream in which `none` marks the point
where the pandas reader raises: the loop is abandoned there and the file
yields no state. -/
def runChunks (tld : String → TldExtractResult) (sup : Suppression) (cols : List String) :
    List (Option (List (List Value))) → FileState → Option FileState
  | [], st => some st
  | none :: _, _ => none
  | some ch :: rest, st => runChunks tld sup cols rest (stepChunk tld sup cols st ch)

/-- How `pd.read_csv(..., chunksize=c)` slices the data rows: consecutive
groups of at most `c` rows; a file with zero data rows yields exactly one
empty chunk (the reader's first-chunk behavior returns an empty frame
instead of raising `StopIteration`). -/
def mkChunksPos (c : Nat) : List (List Value) → List (List (List Value))
  | [] => []
  | r :: rest => (r :: rest.take (c - 1)) :: mkChunksPos c (rest.drop (c - 1))
termination_by l => l.length
decreasing_by
  simp only [List.length_drop, List.length_cons]
  omega

/-- Chunking of a parsed file, including the empty-file case. -/
def mkChunks (c : Nat) (rows : List (List Value)) : List (List (List Value)) :=
  if rows.isEmpty then [[]] else mkChunksPos c rows

/-- Insertion of a string into a sorted list (`sorted` model). -/
def insertSorted (a : String) : List String → List String
  | [] => [a]
  | b :: l => if a ≤ b then a :: b :: l else b :: insertSorted a l

/-- `sorted(set(xs))`: the distinct elements in ascending order. -/
def sortedDedup (l : List String) : List String :=
  l.eraseDups.foldr insertSorted []

/-- One summary record as appended by `process_files`. -/
structure SummaryRec where
  file : String
  identifiedCols : List String
  rowsBefore : Nat
  rowsAfter : Nat
  removedEmail : Nat
  removedPhone : Nat
  removedDomain : Nat
  totalRemoved : Nat
deriving DecidableEq

/-- The summary record built from a completed file state. -/
def mkSummary (name : String) (st : FileState) : SummaryRec :=
  let total := st.remE + st.remP + st.remD
  ⟨name, sortedDedup st.colsFound, st.rowsBefore, st.rowsBefore - total,
    st.remE, st.remP, st.remD, total⟩

/-- One uploaded target file: its name, its header, and its chunk stream
(`none` marking a parse failure reached mid-stream). -/
structure UFile where
  name : String
  cols : List String
  chunks : List (Option (List (List Value)))
deriving DecidableEq

/-- The file has a chunk at which parsing raises. -/
def fileFails (f : UFile) : Bool := f.chunks.any (fun c => c.isNone)

/-- The fully parsed chunk list of a file without parse failures. -/
def okChunks (f : UFile) : List (List (List Value)) := f.chunks.filterMap id

/-- Success log line of `process_files`. -/
def okLog (name : String) (total : Nat) : String :=
  name ++ ": removed " ++ toString total ++ " rows"

/-- Failure log line of `process_files`. -/
def failLog (name : String) : String := name ++ " failed"

/-- Python dict assignment `d[k] = v`: overwrite in place when the key
exists, else append the pair. -/
def dictSet {β : Type} (d : List (String × β)) (k : String) (v : β) : List (String × β) :=
  if d.any (fun p => p.1 == k) then d.map (fun p => if p.1 == k then (k, v) else p)
  else d ++ [(k, v)]

/-- `process_files(files_to_clean, suppression)` restricted to its data
outcome: the summary list, the log lines, and the cleaned outputs keyed by
file name (each output being the final file state whose `headers` and
`outRows` are the sink's content).  A file whose stream fails contributes a
failure log and nothing else. -/
def process_files (tld : String → TldExtractResult) (sup : Suppression) (files : List UFile) :
    List SummaryRec × List String × List (String × FileState) :=
  files.foldl
    (fun acc f =>
      match runChunks tld sup f.cols f.chunks initFileState with
      | some st =>
        (acc.1 ++ [mkSummary f.name st],
         acc.2.1 ++ [okLog f.name (st.remE + st.remP + st.remD)],
         dictSet acc.2.2 f.name st)
      | none => (acc.1, acc.2.1 ++ [failLog f.name], acc.2.2))
    ([], [], [])

/-! ### Temp-file lifecycle (`process_files` with the module-level cleanup)

Temp paths are modelled as the consecutive numbers handed out by
`tempfile.NamedTemporaryFile` (every call yields a fresh path); the file
system is the list of existing temp paths. -/

/-- The temp file system: existing paths and the next fresh path. -/
structure Sys where
  fs : List Nat
  fresh : Nat
deriving DecidableEq

/-- `tempfile.NamedTemporaryFile(delete=False)`: create a fresh path. -/
def newTemp (s : Sys) : Nat × Sys :=
  (s.fresh, ⟨s.fs ++ [s.fresh], s.fresh + 1⟩)

/-- `os.remove(p)` under `try/except: pass`. -/
def fsRemove (s : Sys) (p : Nat) : Sys :=
  ⟨s.fs.filter (fun q => q != p), s.fresh⟩

/-- The per-file loop of `process_files` as it touches the file system:
save the upload to a temp path, create the output temp path, run the
chunk loop (recording the output path under the file's name on success),
and in the `finally` block delete the saved upload. -/
def processFilesSys (tld : String → TldExtractResult) (sup : Suppression) :
    List UFile → Sys → List (String × Nat) → Sys × List (String × Nat)
  | [], s, cleaned => (s, cleaned)
  | f :: rest, s, cleaned =>
    let src := newTemp s
    let outp := newTemp src.2
    let cleaned' :=
      match runChunks tld sup f.cols f.chunks initFileState with
      | some _ => dictSet cleaned f.name outp.1
      | none => cleaned
    processFilesSys tld sup rest (fsRemove outp.2 src.1) cleaned'

/-- The whole run as it touches the file system: `process_files` followed
by the module-level cleanup that deletes every path in `cleaned_paths`
after the ZIP archive is built. -/
def runPipeline (tld : String → TldExtractResult) (sup : Suppression) (files : List UFile) : Sys :=
  let res := processFilesSys tld sup files ⟨[], 0⟩ []
  (res.2.map Prod.snd).foldl fsRemove res.1

/-- The output temp paths handed out to the files, in order, starting from
counter `k` (the `2*i`-th fresh path is file `i`'s saved upload, the
`2*i + 1`-st its output). -/
def outPaths : Nat → List UFile → List Nat
  | _, [] => []
  | k, _ :: rest => (k + 1) :: outPaths (k + 2) rest

/-- The `(name, output path)` pairs accumulated in `cleaned_paths` for the
successful files, starting from counter `k`. -/
def succPairs : Nat → List UFile → List (String × Nat)
  | _, [] => []
  | k, f :: rest =>
    (if fileFails f then [] else [(f.name, k + 1)]) ++ succPairs (k + 2) rest

/-- The temp paths left on disk after the whole run, starting from counter
`k`: exactly the output paths of the files that failed. -/
def leakedPaths : Nat → List UFile → List Nat
  | _, [] => []
  | k, f :: rest =>
    (if fileFails f then [k + 1] else []) ++ leakedPaths (k + 2) rest

/-! ### Chunk-splitting comparison (for chunk-boundary invariance) -/

/-- Feed a list of chunks sharing one header through `clean_chunk`,
concatenating survivors and summing the per-category counters, exactly as
the chunk loop of `process_files` accumulates them. -/
def filterChunks (tld : String → TldExtractResult) (sup : Suppression) (cols : List String)
    (chunks : List (List (List Value))) : List (List Value) × Nat × Nat × Nat :=
  chunks.foldl
    (fun acc ch =>
      let res := clean_chunk tld ⟨cols, ch⟩ sup
      (acc.1 ++ res.1.rows, acc.2.1 + res.2.1, acc.2.2.1 + res.2.2.1, acc.2.2.2 + res.2.2.2))
    ([], 0, 0, 0)

/-- A public-suffix extractor fragment, used by concrete evaluations that
never reach the domain pass. -/
def tldNull : String → TldExtractResult := fun _ => ⟨"", "", ""⟩

/-- Modelled from the spec: the external public-suffix dependency
(`tldextract.extract`, absent from the repository) on the concrete inputs
used below, following its documented behavior — a bare name with an
unknown suffix yields a domain label with an empty suffix (`localhost` ↦
domain `localhost`, suffix empty), and a bare public suffix yields an
empty domain label (`com`, `uk` ↦ empty domain, that suffix). -/
def tldModel : String → TldExtractResult := fun s =>
  if s = "localhost" then ⟨"", "localhost", ""⟩
  else if s = "com" then ⟨"", "", "com"⟩
  else if s = "uk" then ⟨"", "", "uk"⟩
  else ⟨"", "", ""⟩

/-! ## Generic list lemmas -/

theorem length_filterMap_add_countP {α β : Type} (f : α → Option β) (l : List α) :
    (l.filterMap f).length + l.countP (fun a => (f a).isNone) = l.length := by
  induction l with
  | nil => simp
  | cons a l ih =>
    cases h : f a <;> simp [List.filterMap_cons, h, List.countP_cons] <;> omega

theorem countP_add_countP_not {α : Type} (p : α → Bool) (l : List α) :
    l.countP p + l.countP (fun a => !(p a)) = l.length := by
  induction l with
  | nil => simp
  | cons a l ih =>
    cases h : p a <;> simp [List.countP_cons, h] <;> omega

theorem filterMap_filter_if {α β : Type} (q : α → Bool) (g : α → Option β) (l : List α) :
    (l.filter q).filterMap g = l.filterMap (fun a => if q a then g a else none) := by
  induction l with
  | nil => rfl
  | cons a l ih =>
    cases h : q a <;> simp [List.filter_cons, h, List.filterMap_cons, ih]

theorem countP_or_split {α : Type} (d q : α → Bool) (l : List α) :
    l.countP (fun a => d a || q a) =
      l.countP d + l.countP (fun a => q a && !(d a)) := by
  induction l with
  | nil => simp
  | cons a l ih =>
    cases hd : d a <;> cases hq : q a <;>
      simp [List.countP_cons, hd, hq, ih] <;> omega

theorem sublist_filterMap_of_preserve {α : Type} (f : α → Option α) (l : List α)
    (h : ∀ a ∈ l, f a = none ∨ f a = some a) : (l.filterMap f).Sublist l := by
  induction l with
  | nil => simp
  | cons a l ih =>
    have ha := h a (List.mem_cons_self a l)
    have hl := ih (fun b hb => h b (List.mem_cons_of_mem a hb))
    rcases ha with ha | ha
    · rw [List.filterMap_cons, ha]
      exact hl.cons a
    · rw [List.filterMap_cons, ha]
      exact hl.cons₂ a

/-! ## The category passes are row-local -/

theorem assignMapped_eq (clean : Value → Value) (scratch : String) (cols : List String)
    (rows : List (List Value)) (col : String) :
    assignMapped clean scratch ⟨cols, rows⟩ col =
      ⟨stepCols scratch cols, rows.map (stepRow clean scratch cols col)⟩ := by
  unfold assignMapped stepCols stepRow
  cases h : colIdx cols scratch <;> simp [h]

theorem passCol_eq (clean : Value → Value) (scratch : String) (S : List Value)
    (cols : List String) (rows : List (List Value)) (n : Nat) (col : String) :
    passCol clean scratch S (⟨cols, rows⟩, n) col =
      (⟨stepCols scratch cols,
        (rows.filter (fun r =>
            !(S.contains (rowGet (stepCols scratch cols)
              (stepRow clean scratch cols col r) scratch)))).map (stepRow clean scratch cols col)⟩,
       n + rows.countP (fun r =>
         S.contains (rowGet (stepCols scratch cols) (stepRow clean scratch cols col r) scratch))) := by
  unfold passCol
  rw [assignMapped_eq]
  simp only [List.filter_map, Function.comp_def]
  congr 1
  simp only [List.length_map, ← List.countP_eq_length_filter, Function.comp_def]
  have hsub := countP_add_countP_not
    (fun r => S.contains (rowGet (stepCols scratch cols) (stepRow clean scratch cols col r) scratch))
    rows
  omega

theorem pass_fold (clean : Value → Value) (scratch : String) (S : List Value) :
    ∀ (L : List String) (cols : List String) (rows : List (List Value)) (n : Nat),
    L.foldl (passCol clean scratch S) (⟨cols, rows⟩, n) =
      (⟨passColsFinal scratch cols L, rows.filterMap (passRow clean scratch S cols L)⟩,
       n + rows.countP (fun r => (passRow clean scratch S cols L r).isNone)) := by
  intro L
  induction L with
  | nil =>
    intro cols rows n
    simp [passColsFinal, passRow]
  | cons col L ih =>
    intro cols rows n
    rw [List.foldl_cons, passCol_eq, ih]
    have hrow : ∀ r, passRow clean scratch S cols (col :: L) r =
        if S.contains (rowGet (stepCols scratch cols)
            (stepRow clean scratch cols col r) scratch) then none
        else passRow clean scratch S (stepCols scratch cols) L
          (stepRow clean scratch cols col r) := by
      intro r
      rfl
    have hcols : passColsFinal scratch cols (col :: L) =
        passColsFinal scratch (stepCols scratch cols) L := rfl
    rw [hcols]
    have hfm :
        ((rows.filter (fun r =>
            !(S.contains (rowGet (stepCols scratch cols)
              (stepRow clean scratch cols col r) scratch)))).map
          (stepRow clean scratch cols col)).filterMap
            (passRow clean scratch S (stepCols scratch cols) L) =
        rows.filterMap (passRow clean scratch S cols (col :: L)) := by
      rw [List.filterMap_map, filterMap_filter_if]
      apply List.filterMap_congr
      intro r _
      simp only [Function.comp, hrow r]
      cases h : S.contains (rowGet (stepCols scratch cols)
          (stepRow clean scratch cols col r) scratch) <;> simp [h]
    have hcnt :
        n + rows.countP (fun r =>
            S.contains (rowGet (stepCols scratch cols)
              (stepRow clean scratch cols col r) scratch)) +
          ((rows.filter (fun r =>
              !(S.contains (rowGet (stepCols scratch cols)
                (stepRow clean scratch cols col r) scratch)))).map
            (stepRow clean scratch cols col)).countP
              (fun r => (passRow clean scratch S (stepCols scratch cols) L r).isNone) =
        n + rows.countP (fun r => (passRow clean scratch S cols (col :: L) r).isNone) := by
      rw [List.countP_map, List.countP_filter]
      have hpt : rows.countP (fun r => (passRow clean scratch S cols (col :: L) r).isNone) =
          rows.countP (fun r =>
            S.contains (rowGet (stepCols scratch cols)
                (stepRow clean scratch cols col r) scratch) ||
            (passRow clean scratch S (stepCols scratch cols) L
              (stepRow clean scratch cols col r)).isNone) := by
        apply List.countP_congr
        intro r _
        rw [hrow r]
        cases h : S.contains (rowGet (stepCols scratch cols)
            (stepRow clean scratch cols col r) scratch) <;> simp [h]
      rw [hpt, countP_or_split]
      simp only [Function.comp_def]
      omega
    rw [hfm, hcnt]

theorem clean_chunk_eq (tld : String → TldExtractResult) (sup : Suppression)
    (cols : List String) (rows : List (List Value)) :
    clean_chunk tld ⟨cols, rows⟩ sup =
      (dropScratch ⟨colsAfterD cols,
         ((rows.filterMap (rowE sup cols)).filterMap (rowP sup cols)).filterMap
           (rowD tld sup cols)⟩,
       rows.countP (fun r => (rowE sup cols r).isNone),
       (rows.filterMap (rowE sup cols)).countP (fun r => (rowP sup cols r).isNone),
       ((rows.filterMap (rowE sup cols)).filterMap (rowP sup cols)).countP
         (fun r => (rowD tld sup cols r).isNone)) := by
  unfold clean_chunk
  simp only [pass_fold, Nat.zero_add]
  rfl

/-! ## Consequences: additivity over row batches and count conservation -/

theorem flatten_map_singleton {α : Type} (l : List α) :
    (l.map (fun a => [a])).flatten = l := by
  induction l with
  | nil => rfl
  | cons a l ih => simp [ih]

theorem clean_chunk_rows_append (tld : String → TldExtractResult) (sup : Suppression)
    (cols : List String) (a b : List (List Value)) :
    (clean_chunk tld ⟨cols, a ++ b⟩ sup).1.rows =
      (clean_chunk tld ⟨cols, a⟩ sup).1.rows ++ (clean_chunk tld ⟨cols, b⟩ sup).1.rows := by
  simp [clean_chunk_eq, dropScratch, List.filterMap_append, List.map_append]

theorem clean_chunk_cntE_append (tld : String → TldExtractResult) (sup : Suppression)
    (cols : List String) (a b : List (List Value)) :
    (clean_chunk tld ⟨cols, a ++ b⟩ sup).2.1 =
      (clean_chunk tld ⟨cols, a⟩ sup).2.1 + (clean_chunk tld ⟨cols, b⟩ sup).2.1 := by
  simp [clean_chunk_eq, List.countP_append]

theorem clean_chunk_cntP_append (tld : String → TldExtractResult) (sup : Suppression)
    (cols : List String) (a b : List (List Value)) :
    (clean_chunk tld ⟨cols, a ++ b⟩ sup).2.2.1 =
      (clean_chunk tld ⟨cols, a⟩ sup).2.2.1 + (clean_chunk tld ⟨cols, b⟩ sup).2.2.1 := by
  simp [clean_chunk_eq, List.filterMap_append, List.countP_append]

theorem clean_chunk_cntD_append (tld : String → TldExtractResult) (sup : Suppression)
    (cols : List String) (a b : List (List Value)) :
    (clean_chunk tld ⟨cols, a ++ b⟩ sup).2.2.2 =
      (clean_chunk tld ⟨cols, a⟩ sup).2.2.2 + (clean_chunk tld ⟨cols, b⟩ sup).2.2.2 := by
  simp [clean_chunk_eq, List.filterMap_append, List.countP_append]

theorem clean_chunk_conservation (tld : String → TldExtractResult) (sup : Suppression)
    (cols : List String) (ch : List (List Value)) :
    (clean_chunk tld ⟨cols, ch⟩ sup).1.rows.length + (clean_chunk tld ⟨cols, ch⟩ sup).2.1 +
      (clean_chunk tld ⟨cols, ch⟩ sup).2.2.1 + (clean_chunk tld ⟨cols, ch⟩ sup).2.2.2 =
      ch.length := by
  rw [clean_chunk_eq]
  simp only [dropScratch, List.length_map]
  have h1 := length_filterMap_add_countP (rowE sup cols) ch
  have h2 := length_filterMap_add_countP (rowP sup cols) (ch.filterMap (rowE sup cols))
  have h3 := length_filterMap_add_countP (rowD tld sup cols)
    ((ch.filterMap (rowE sup cols)).filterMap (rowP sup cols))
  omega

theorem filterChunks_accum (tld : String → TldExtractResult) (sup : Suppression)
    (cols : List String) :
    ∀ (chunks : List (List (List Value))) (s : List (List Value)) (e p d : Nat),
    chunks.foldl
      (fun acc ch =>
        let res := clean_chunk tld ⟨cols, ch⟩ sup
        (acc.1 ++ res.1.rows, acc.2.1 + res.2.1, acc.2.2.1 + res.2.2.1, acc.2.2.2 + res.2.2.2))
      (s, e, p, d) =
      (s ++ (clean_chunk tld ⟨cols, chunks.flatten⟩ sup).1.rows,
       e + (clean_chunk tld ⟨cols, chunks.flatten⟩ sup).2.1,
       p + (clean_chunk tld ⟨cols, chunks.flatten⟩ sup).2.2.1,
       d + (clean_chunk tld ⟨cols, chunks.flatten⟩ sup).2.2.2) := by
  intro chunks
  induction chunks with
  | nil =>
    intro s e p d
    simp [clean_chunk_eq, dropScratch]
  | cons ch chunks ih =>
    intro s e p d
    rw [List.foldl_cons]
    simp only []
    rw [ih]
    have hf : (ch :: chunks).flatten = ch ++ chunks.flatten := rfl
    rw [hf, clean_chunk_rows_append, clean_chunk_cntE_append, clean_chunk_cntP_append,
      clean_chunk_cntD_append]
    simp [List.append_assoc, Nat.add_assoc]

/-- C6: for every header, suppression set and extractor, filtering the rows
as chunks of size 1 yields the same surviving row sequence and the same
per-category removal counts as filtering them as one single chunk. -/
theorem C6_chunk_boundary_invariance (tld : String → TldExtractResult) (sup : Suppression)
    (cols : List String) (rows : List (List Value)) :
    filterChunks tld sup cols (rows.map (fun r => [r])) = filterChunks tld sup cols [rows] := by
  unfold filterChunks
  rw [filterChunks_accum, filterChunks_accum, flatten_map_singleton]
  simp

/-! ## The chunk loop of `process_files` -/

theorem runChunksOk_cons (tld : String → TldExtractResult) (sup : Suppression)
    (cols : List String) (ch : List (List Value)) (chunks : List (List (List Value)))
    (st : FileState) :
    runChunksOk tld sup cols (ch :: chunks) st =
      runChunksOk tld sup cols chunks (stepChunk tld sup cols st ch) := rfl

theorem runChunksOk_rowsBefore (tld : String → TldExtractResult) (sup : Suppression)
    (cols : List String) :
    ∀ (chunks : List (List (List Value))) (st : FileState),
    (runChunksOk tld sup cols chunks st).rowsBefore =
      st.rowsBefore + (chunks.map List.length).sum := by
  intro chunks
  induction chunks with
  | nil => intro st; simp [runChunksOk]
  | cons ch chunks ih =>
    intro st
    rw [runChunksOk_cons, ih]
    simp [stepChunk]
    omega

theorem runChunksOk_outRows (tld : String → TldExtractResult) (sup : Suppression)
    (cols : List String) :
    ∀ (chunks : List (List (List Value))) (st : FileState),
    (runChunksOk tld sup cols chunks st).outRows =
      st.outRows ++ (clean_chunk tld ⟨cols, chunks.flatten⟩ sup).1.rows := by
  intro chunks
  induction chunks with
  | nil => intro st; simp [runChunksOk, clean_chunk_eq, dropScratch]
  | cons ch chunks ih =>
    intro st
    rw [runChunksOk_cons, ih]
    have hf : (ch :: chunks).flatten = ch ++ chunks.flatten := rfl
    rw [hf, clean_chunk_rows_append]
    simp [stepChunk, List.append_assoc]

theorem runChunksOk_remE (tld : String → TldExtractResult) (sup : Suppression)
    (cols : List String) :
    ∀ (chunks : List (List (List Value))) (st : FileState),
    (runChunksOk tld sup cols chunks st).remE =
      st.remE + ((chunks.map (fun ch => (clean_chunk tld ⟨cols, ch⟩ sup).2.1)).sum) := by
  intro chunks
  induction chunks with
  | nil => intro st; simp [runChunksOk]
  | cons ch chunks ih =>
    intro st
    rw [runChunksOk_cons, ih]
    simp [stepChunk]
    omega

theorem runChunksOk_remP (tld : String → TldExtractResult) (sup : Suppression)
    (cols : List String) :
    ∀ (chunks : List (List (List Value))) (st : FileState),
    (runChunksOk tld sup cols chunks st).remP =
      st.remP + ((chunks.map (fun ch => (clean_chunk tld ⟨cols, ch⟩ sup).2.2.1)).sum) := by
  intro chunks
  induction chunks with
  | nil => intro st; simp [runChunksOk]
  | cons ch chunks ih =>
    intro st
    rw [runChunksOk_cons, ih]
    simp [stepChunk]
    omega

theorem runChunksOk_remD (tld : String → TldExtractResult) (sup : Suppression)
    (cols : List String) :
    ∀ (chunks : List (List (List Value))) (st : FileState),
    (runChunksOk tld sup cols chunks st).remD =
      st.remD + ((chunks.map (fun ch => (clean_chunk tld ⟨cols, ch⟩ sup).2.2.2)).sum) := by
  intro chunks
  induction chunks with
  | nil => intro st; simp [runChunksOk]
  | cons ch chunks ih =>
    intro st
    rw [runChunksOk_cons, ih]
    simp [stepChunk]
    omega

theorem runChunksOk_headers_stable (tld : String → TldExtractResult) (sup : Suppression)
    (cols : List String) :
    ∀ (chunks : List (List (List Value))) (st : FileState), st.firstWrite = false →
    (runChunksOk tld sup cols chunks st).headers = st.headers ∧
      (runChunksOk tld sup cols chunks st).firstWrite = false := by
  intro chunks
  induction chunks with
  | nil => intro st h; exact ⟨rfl, h⟩
  | cons ch chunks ih =>
    intro st h
    rw [runChunksOk_cons]
    have hstep : (stepChunk tld sup cols st ch).headers = st.headers := by
      simp [stepChunk, h]
    have := ih (stepChunk tld sup cols st ch) (by simp [stepChunk])
    rw [this.1, hstep]
    exact ⟨rfl, this.2⟩

theorem runChunksOk_headers_one (tld : String → TldExtractResult) (sup : Suppression)
    (cols : List String) (chunks : List (List (List Value))) (h : chunks ≠ []) :
    (runChunksOk tld sup cols chunks initFileState).headers = 1 := by
  cases chunks with
  | nil => exact absurd rfl h
  | cons ch chunks =>
    rw [runChunksOk_cons]
    have hstep : (stepChunk tld sup cols initFileState ch).headers = 1 := by
      simp [stepChunk, initFileState]
    have := runChunksOk_headers_stable tld sup cols chunks
      (stepChunk tld sup cols initFileState ch) (by simp [stepChunk])
    rw [this.1, hstep]

theorem runChunks_map_some (tld : String → TldExtractResult) (sup : Suppression)
    (cols : List String) :
    ∀ (chunks : List (List (List Value))) (st : FileState),
    runChunks tld sup cols (chunks.map some) st = some (runChunksOk tld sup cols chunks st) := by
  intro chunks
  induction chunks with
  | nil => intro st; rfl
  | cons ch chunks ih => intro st; exact ih (stepChunk tld sup cols st ch)

/-! ## Chunking of a parsed file -/

theorem mkChunksPos_flatten (c : Nat) (rows : List (List Value)) :
    (mkChunksPos c rows).flatten = rows := by
  have H : ∀ (n : Nat) (l : List (List Value)), l.length ≤ n →
      (mkChunksPos c l).flatten = l := by
    intro n
    induction n with
    | zero =>
      intro l hl
      have hnil : l = [] := List.length_eq_zero.mp (Nat.le_zero.mp hl)
      subst hnil
      simp [mkChunksPos]
    | succ n ih =>
      intro l hl
      cases l with
      | nil => simp [mkChunksPos]
      | cons r rest =>
        have hdrop : (rest.drop (c - 1)).length ≤ n := by
          have hlen := List.length_drop (c - 1) rest
          simp only [List.length_cons] at hl
          omega
        simp only [mkChunksPos, List.flatten_cons, ih _ hdrop]
        simp [List.take_append_drop]
  exact H rows.length rows (Nat.le_refl _)

theorem mkChunks_flatten (c : Nat) (rows : List (List Value)) :
    (mkChunks c rows).flatten = rows := by
  unfold mkChunks
  cases h : rows.isEmpty
  · simp [mkChunksPos_flatten]
  · have : rows = [] := List.isEmpty_iff.mp h
    subst this
    rfl

theorem mkChunks_ne_nil (c : Nat) (rows : List (List Value)) : mkChunks c rows ≠ [] := by
  unfold mkChunks
  cases h : rows.isEmpty
  · have : rows ≠ [] := fun hh => by simp [hh] at h
    cases rows with
    | nil => exact absurd rfl this
    | cons r rest => simp [mkChunksPos]
  · simp

theorem sum_map_cntE (tld : String → TldExtractResult) (sup : Suppression) (cols : List String) :
    ∀ (chunks : List (List (List Value))),
    ((chunks.map (fun ch => (clean_chunk tld ⟨cols, ch⟩ sup).2.1)).sum) =
      (clean_chunk tld ⟨cols, chunks.flatten⟩ sup).2.1 := by
  intro chunks
  induction chunks with
  | nil => simp [clean_chunk_eq]
  | cons ch chunks ih =>
    have hf : (ch :: chunks).flatten = ch ++ chunks.flatten := rfl
    rw [hf, clean_chunk_cntE_append]
    simp [ih]

theorem sum_map_cntP (tld : String → TldExtractResult) (sup : Suppression) (cols : List String) :
    ∀ (chunks : List (List (List Value))),
    ((chunks.map (fun ch => (clean_chunk tld ⟨cols, ch⟩ sup).2.2.1)).sum) =
      (clean_chunk tld ⟨cols, chunks.flatten⟩ sup).2.2.1 := by
  intro chunks
  induction chunks with
  | nil => simp [clean_chunk_eq]
  | cons ch chunks ih =>
    have hf : (ch :: chunks).flatten = ch ++ chunks.flatten := rfl
    rw [hf, clean_chunk_cntP_append]
    simp [ih]

theorem sum_map_cntD (tld : String → TldExtractResult) (sup : Suppression) (cols : List String) :
    ∀ (chunks : List (List (List Value))),
    ((chunks.map (fun ch => (clean_chunk tld ⟨cols, ch⟩ sup).2.2.2)).sum) =
      (clean_chunk tld ⟨cols, chunks.flatten⟩ sup).2.2.2 := by
  intro chunks
  induction chunks with
  | nil => simp [clean_chunk_eq]
  | cons ch chunks ih =>
    have hf : (ch :: chunks).flatten = ch ++ chunks.flatten := rfl
    rw [hf, clean_chunk_cntD_append]
    simp [ih]

/-- C2: for a target file streamed to completion, the summary record
satisfies `rows_before = rows_after + removed_by_email + removed_by_phone
+ removed_by_domain`; `rows_after` is the number of surviving rows actually
appended to the output sink; `rows_before` is the number of parsed data
rows; and each removal counter is the sum over all chunks of the rows that
category's passes dropped in `clean_chunk`. -/
theorem C2_count_conservation (tld : String → TldExtractResult) (sup : Suppression)
    (name : String) (cols : List String) (csize : Nat) (rows : List (List Value)) :
    (mkSummary name (runChunksOk tld sup cols (mkChunks csize rows) initFileState)).rowsBefore =
        (mkSummary name (runChunksOk tld sup cols (mkChunks csize rows) initFileState)).rowsAfter +
        (mkSummary name (runChunksOk tld sup cols (mkChunks csize rows) initFileState)).removedEmail +
        (mkSummary name (runChunksOk tld sup cols (mkChunks csize rows) initFileState)).removedPhone +
        (mkSummary name (runChunksOk tld sup cols (mkChunks csize rows) initFileState)).removedDomain ∧
      (mkSummary name (runChunksOk tld sup cols (mkChunks csize rows) initFileState)).rowsAfter =
        (runChunksOk tld sup cols (mkChunks csize rows) initFileState).outRows.length ∧
      (mkSummary name (runChunksOk tld sup cols (mkChunks csize rows) initFileState)).rowsBefore =
        rows.length ∧
      (mkSummary name (runChunksOk tld sup cols (mkChunks csize rows) initFileState)).removedEmail =
        ((mkChunks csize rows).map (fun ch => (clean_chunk tld ⟨cols, ch⟩ sup).2.1)).sum ∧
      (mkSummary name (runChunksOk tld sup cols (mkChunks csize rows) initFileState)).removedPhone =
        ((mkChunks csize rows).map (fun ch => (clean_chunk tld ⟨cols, ch⟩ sup).2.2.1)).sum ∧
      (mkSummary name (runChunksOk tld sup cols (mkChunks csize rows) initFileState)).removedDomain =
        ((mkChunks csize rows).map (fun ch => (clean_chunk tld ⟨cols, ch⟩ sup).2.2.2)).sum := by
  set st := runChunksOk tld sup cols (mkChunks csize rows) initFileState with hst
  have pB : (mkSummary name st).rowsBefore = st.rowsBefore := rfl
  have pA : (mkSummary name st).rowsAfter = st.rowsBefore - (st.remE + st.remP + st.remD) := rfl
  have pE : (mkSummary name st).removedEmail = st.remE := rfl
  have pP : (mkSummary name st).removedPhone = st.remP := rfl
  have pD : (mkSummary name st).removedDomain = st.remD := rfl
  rw [pB, pA, pE, pP, pD]
  have hB := runChunksOk_rowsBefore tld sup cols (mkChunks csize rows) initFileState
  have hO := runChunksOk_outRows tld sup cols (mkChunks csize rows) initFileState
  have hE := runChunksOk_remE tld sup cols (mkChunks csize rows) initFileState
  have hP := runChunksOk_remP tld sup cols (mkChunks csize rows) initFileState
  have hD := runChunksOk_remD tld sup cols (mkChunks csize rows) initFileState
  rw [← hst] at hB hO hE hP hD
  simp only [initFileState, List.nil_append] at hB hO hE hP hD
  have hsE := sum_map_cntE tld sup cols (mkChunks csize rows)
  have hsP := sum_map_cntP tld sup cols (mkChunks csize rows)
  have hsD := sum_map_cntD tld sup cols (mkChunks csize rows)
  have hflat := mkChunks_flatten csize rows
  have hcons := clean_chunk_conservation tld sup cols ((mkChunks csize rows).flatten)
  rw [hflat] at hsE hsP hsD hcons hO
  have hlen : ((mkChunks csize rows).map List.length).sum = rows.length := by
    rw [← List.length_flatten, hflat]
  have hOlen : st.outRows.length = (clean_chunk tld ⟨cols, rows⟩ sup).1.rows.length := by
    rw [hO]
  refine ⟨by omega, by omega, by omega, by omega, by omega, by omega⟩

/-- C4: a target file that parses to completion receives exactly one header
line in its cleaned output, regardless of how many chunks `read_csv` slices
it into, including a file with zero data rows (whose single empty chunk
writes the header alone). -/
theorem C4_header_invariance (tld : String → TldExtractResult) (sup : Suppression)
    (cols : List String) (csize : Nat) (rows : List (List Value)) :
    runChunks tld sup cols ((mkChunks csize rows).map some) initFileState =
      some (runChunksOk tld sup cols (mkChunks csize rows) initFileState) ∧
    (runChunksOk tld sup cols (mkChunks csize rows) initFileState).headers = 1 := by
  exact ⟨runChunks_map_some tld sup cols (mkChunks csize rows) initFileState,
    runChunksOk_headers_one tld sup cols (mkChunks csize rows) (mkChunks_ne_nil csize rows)⟩

/-! ## Index and lookup lemmas -/

theorem colIdx_eq_none_of_not_mem (cols : List String) (c : String) (h : c ∉ cols) :
    colIdx cols c = none := by
  induction cols with
  | nil => rfl
  | cons x rest ih =>
    have hx : x ≠ c := fun he => h (he ▸ List.mem_cons_self x rest)
    have hr : c ∉ rest := fun hm => h (List.mem_cons_of_mem x hm)
    simp [colIdx, hx, ih hr]

theorem colIdx_isSome_of_mem (cols : List String) (c : String) (h : c ∈ cols) :
    ∃ i, colIdx cols c = some i := by
  induction cols with
  | nil => exact absurd h (List.not_mem_nil c)
  | cons x rest ih =>
    by_cases hx : x = c
    · exact ⟨0, by simp [colIdx, hx]⟩
    · have hm : c ∈ rest := by
        rcases List.mem_cons.mp h with h1 | h1
        · exact absurd h1.symm hx
        · exact h1
      obtain ⟨i, hi⟩ := ih hm
      exact ⟨i + 1, by simp [colIdx, hx, hi]⟩

theorem colIdx_lt_length (cols : List String) (c : String) :
    ∀ i, colIdx cols c = some i → i < cols.length := by
  induction cols with
  | nil => intro i h; exact absurd h (by simp [colIdx])
  | cons x rest ih =>
    intro i h
    simp only [List.length_cons]
    by_cases hx : x = c
    · simp [colIdx, hx] at h
      omega
    · simp only [colIdx, if_neg hx, Option.map_eq_some'] at h
      obtain ⟨j, hj, hji⟩ := h
      have := ih j hj
      omega

theorem colIdx_mem_of_some (cols : List String) (c : String) :
    ∀ i, colIdx cols c = some i → c ∈ cols := by
  induction cols with
  | nil => intro i h; exact absurd h (by simp [colIdx])
  | cons x rest ih =>
    intro i h
    by_cases hx : x = c
    · exact hx ▸ List.mem_cons_self x rest
    · simp only [colIdx, if_neg hx, Option.map_eq_some'] at h
      obtain ⟨j, hj, _⟩ := h
      exact List.mem_cons_of_mem x (ih j hj)

theorem colIdx_append (cols0 ext : List String) (c : String) :
    colIdx (cols0 ++ ext) c =
      match colIdx cols0 c with
      | some i => some i
      | none => (colIdx ext c).map (fun i => i + cols0.length) := by
  induction cols0 with
  | nil => simp [colIdx]
  | cons x rest ih =>
    show colIdx (x :: (rest ++ ext)) c = _
    by_cases hx : x = c
    · simp [colIdx, hx]
    · simp only [colIdx, if_neg hx, ih]
      cases h : colIdx rest c with
      | some i => rfl
      | none =>
        cases h2 : colIdx ext c with
        | some j =>
          simp only [h2, Option.map_some', Option.map_none', List.length_cons]
          exact congrArg some (by omega)
        | none => simp [h2]

theorem getD_set_self {α : Type} (l : List α) (i : Nat) (a d : α) (h : i < l.length) :
    (l.set i a).getD i d = a := by
  induction l generalizing i with
  | nil => simp at h
  | cons x rest ih =>
    cases i with
    | zero => rfl
    | succ j =>
      simp only [List.set_cons_succ, List.getD_cons_succ]
      exact ih j (by simp at h; omega)

theorem rowGet_append_left (cols0 ext : List String) (r re : List Value) (c : String)
    (hmem : c ∈ cols0) (hr : r.length = cols0.length) :
    rowGet (cols0 ++ ext) (r ++ re) c = rowGet cols0 r c := by
  obtain ⟨i, hi⟩ := colIdx_isSome_of_mem cols0 c hmem
  have hlt : i < r.length := hr ▸ colIdx_lt_length cols0 c i hi
  unfold rowGet
  rw [colIdx_append, hi]
  exact List.getD_append r re none i hlt

theorem rowGet_shift (cols0 ext : List String) (r re : List Value) (c : String)
    (hnm : c ∉ cols0) (hr : r.length = cols0.length) :
    rowGet (cols0 ++ ext) (r ++ re) c = rowGet ext re c := by
  unfold rowGet
  rw [colIdx_append, colIdx_eq_none_of_not_mem cols0 c hnm]
  cases h : colIdx ext c with
  | none => simp
  | some j =>
    simp only [Option.map_some']
    rw [List.getD_append_right r re none (j + cols0.length) (by omega)]
    congr 1
    omega

theorem not_mem_of_dunder (scratch : String) (cols0 : List String)
    (hs : isScratchName scratch = true)
    (hdun : ∀ c ∈ cols0, isScratchName c = false) : scratch ∉ cols0 := by
  intro hmem
  have := hdun scratch hmem
  rw [hs] at this
  exact Bool.noConfusion this

theorem not_mem_of_colIdx_none (cols : List String) (c : String) (h : colIdx cols c = none) :
    c ∉ cols := by
  intro hm
  obtain ⟨i, hi⟩ := colIdx_isSome_of_mem cols c hm
  rw [h] at hi
  exact Option.noConfusion hi

/-! ## One category pass on a frame whose own columns are not `__`-prefixed -/

theorem passRow_spec (clean : Value → Value) (scratch : String) (S : List Value)
    (hs : isScratchName scratch = true) :
    ∀ (L ext cols0 : List String) (r re : List Value),
      (∀ c ∈ cols0, isScratchName c = false) →
      (∀ c ∈ L, c ∈ cols0) →
      r.length = cols0.length → re.length = ext.length →
      passColsFinal scratch (cols0 ++ ext) L = cols0 ++ extAfter scratch ext L ∧
      (L.any (fun c => S.contains (clean (rowGet cols0 r c))) = true →
          passRow clean scratch S (cols0 ++ ext) L (r ++ re) = none) ∧
      (L.any (fun c => S.contains (clean (rowGet cols0 r c))) = false →
          ∃ re2, re2.length = (extAfter scratch ext L).length ∧
            passRow clean scratch S (cols0 ++ ext) L (r ++ re) = some (r ++ re2)) := by
  intro L
  induction L with
  | nil =>
    intro ext cols0 r re hdun hL hr hre
    refine ⟨rfl, ?_, ?_⟩
    · intro h
      simp at h
    · intro _
      exact ⟨re, hre, rfl⟩
  | cons col L ih =>
    intro ext cols0 r re hdun hL hr hre
    have hcolmem : col ∈ cols0 := hL col (List.mem_cons_self col L)
    have hLsub : ∀ c ∈ L, c ∈ cols0 := fun c hc => hL c (List.mem_cons_of_mem col hc)
    have hnm : scratch ∉ cols0 := not_mem_of_dunder scratch cols0 hs hdun
    have hval : rowGet (cols0 ++ ext) (r ++ re) col = rowGet cols0 r col :=
      rowGet_append_left cols0 ext r re col hcolmem hr
    have hanycons : ∀ b : Bool, (col :: L).any (fun c => S.contains (clean (rowGet cols0 r c))) =
        (S.contains (clean (rowGet cols0 r col)) || L.any (fun c => S.contains (clean (rowGet cols0 r c)))) :=
      fun _ => List.any_cons
    cases hj : colIdx ext scratch with
    | some j =>
      have hmemext : scratch ∈ ext := colIdx_mem_of_some ext scratch j hj
      have hjlt : j < re.length := hre ▸ colIdx_lt_length ext scratch j hj
      have hidxfull : colIdx (cols0 ++ ext) scratch = some (j + cols0.length) := by
        rw [colIdx_append, colIdx_eq_none_of_not_mem cols0 scratch hnm, hj]
        rfl
      have hstep_cols : stepCols scratch (cols0 ++ ext) = cols0 ++ ext := by
        simp [stepCols, hidxfull]
      have hstep_row : stepRow clean scratch (cols0 ++ ext) col (r ++ re) =
          r ++ re.set j (clean (rowGet cols0 r col)) := by
        simp only [stepRow, hidxfull, hval, List.set_append]
        rw [if_neg (by omega)]
        congr 1
        congr 1
        omega
      have hsetlen : (re.set j (clean (rowGet cols0 r col))).length = ext.length := by
        rw [List.length_set]
        exact hre
      have hscr_val : rowGet (cols0 ++ ext) (r ++ re.set j (clean (rowGet cols0 r col))) scratch =
          clean (rowGet cols0 r col) := by
        rw [rowGet_shift cols0 ext r _ scratch hnm hr]
        unfold rowGet
        rw [hj]
        exact getD_set_self re j _ none hjlt
      have hunfold : passRow clean scratch S (cols0 ++ ext) (col :: L) (r ++ re) =
          if S.contains (clean (rowGet cols0 r col)) then none
          else passRow clean scratch S (cols0 ++ ext) L
            (r ++ re.set j (clean (rowGet cols0 r col))) := by
        show (if S.contains (rowGet (stepCols scratch (cols0 ++ ext))
            (stepRow clean scratch (cols0 ++ ext) col (r ++ re)) scratch) then none
          else passRow clean scratch S (stepCols scratch (cols0 ++ ext)) L
            (stepRow clean scratch (cols0 ++ ext) col (r ++ re))) = _
        rw [hstep_cols, hstep_row, hscr_val]
      have hextL : extAfter scratch ext L = ext := by
        cases L <;> simp [extAfter, hmemext]
      have hextCons : extAfter scratch ext (col :: L) = ext := by
        simp [extAfter, hmemext]
      obtain ⟨ihcols, ihnone, ihsome⟩ :=
        ih ext cols0 r (re.set j (clean (rowGet cols0 r col))) hdun hLsub hr hsetlen
      have hcolsFinal : passColsFinal scratch (cols0 ++ ext) (col :: L) =
          cols0 ++ extAfter scratch ext (col :: L) := by
        show passColsFinal scratch (stepCols scratch (cols0 ++ ext)) L = _
        rw [hstep_cols, ihcols, hextL, hextCons]
      refine ⟨hcolsFinal, ?_, ?_⟩
      · intro hany
        rw [hunfold]
        cases hv : S.contains (clean (rowGet cols0 r col)) with
        | true => simp
        | false =>
          rw [if_neg Bool.false_ne_true]
          rw [hanycons true, hv, Bool.false_or] at hany
          exact ihnone hany
      · intro hany
        rw [hanycons true, Bool.or_eq_false_iff] at hany
        obtain ⟨hv, hanyL⟩ := hany
        have hv2 : ¬(S.contains (clean (rowGet cols0 r col)) = true) := by
          rw [hv]
          exact Bool.false_ne_true
        rw [hunfold, if_neg hv2]
        obtain ⟨re2, hlen2, hpass⟩ := ihsome hanyL
        refine ⟨re2, ?_, hpass⟩
        rw [hextCons]
        rw [hextL] at hlen2
        exact hlen2
    | none =>
      have hnmext : scratch ∉ ext := not_mem_of_colIdx_none ext scratch hj
      have hidxfull : colIdx (cols0 ++ ext) scratch = none := by
        rw [colIdx_append, colIdx_eq_none_of_not_mem cols0 scratch hnm, hj]
        rfl
      have hstep_cols : stepCols scratch (cols0 ++ ext) = cols0 ++ (ext ++ [scratch]) := by
        simp [stepCols, hidxfull, List.append_assoc]
      have hstep_row : stepRow clean scratch (cols0 ++ ext) col (r ++ re) =
          r ++ (re ++ [clean (rowGet cols0 r col)]) := by
        simp only [stepRow, hidxfull, hval, List.append_assoc]
      have hlen' : (re ++ [clean (rowGet cols0 r col)]).length = (ext ++ [scratch]).length := by
        simp [hre]
      have hidx2 : colIdx (ext ++ [scratch]) scratch = some ext.length := by
        rw [colIdx_append, hj]
        simp [colIdx]
      have hscr_val : rowGet (cols0 ++ (ext ++ [scratch]))
          (r ++ (re ++ [clean (rowGet cols0 r col)])) scratch = clean (rowGet cols0 r col) := by
        rw [rowGet_shift cols0 (ext ++ [scratch]) r (re ++ [clean (rowGet cols0 r col)])
          scratch hnm hr]
        unfold rowGet
        rw [hidx2]
        have hgd : (re ++ [clean (rowGet cols0 r col)]).getD ext.length none =
            clean (rowGet cols0 r col) := by
          rw [List.getD_append_right re [clean (rowGet cols0 r col)] none ext.length (by omega)]
          simp [hre]
        exact hgd
      have hunfold : passRow clean scratch S (cols0 ++ ext) (col :: L) (r ++ re) =
          if S.contains (clean (rowGet cols0 r col)) then none
          else passRow clean scratch S (cols0 ++ (ext ++ [scratch])) L
            (r ++ (re ++ [clean (rowGet cols0 r col)])) := by
        show (if S.contains (rowGet (stepCols scratch (cols0 ++ ext))
            (stepRow clean scratch (cols0 ++ ext) col (r ++ re)) scratch) then none
          else passRow clean scratch S (stepCols scratch (cols0 ++ ext)) L
            (stepRow clean scratch (cols0 ++ ext) col (r ++ re))) = _
        rw [hstep_cols, hstep_row, hscr_val]
      have hextCons : extAfter scratch ext (col :: L) = ext ++ [scratch] := by
        simp [extAfter, hnmext]
      have hextL' : extAfter scratch (ext ++ [scratch]) L = ext ++ [scratch] := by
        cases L <;> simp [extAfter]
      obtain ⟨ihcols, ihnone, ihsome⟩ :=
        ih (ext ++ [scratch]) cols0 r (re ++ [clean (rowGet cols0 r col)]) hdun hLsub hr hlen'
      have hcolsFinal : passColsFinal scratch (cols0 ++ ext) (col :: L) =
          cols0 ++ extAfter scratch ext (col :: L) := by
        show passColsFinal scratch (stepCols scratch (cols0 ++ ext)) L = _
        rw [hstep_cols, ihcols, hextL', hextCons]
      refine ⟨hcolsFinal, ?_, ?_⟩
      · intro hany
        rw [hunfold]
        cases hv : S.contains (clean (rowGet cols0 r col)) with
        | true => simp
        | false =>
          rw [if_neg Bool.false_ne_true]
          rw [hanycons true, hv, Bool.false_or] at hany
          exact ihnone hany
      · intro hany
        rw [hanycons true, Bool.or_eq_false_iff] at hany
        obtain ⟨hv, hanyL⟩ := hany
        have hv2 : ¬(S.contains (clean (rowGet cols0 r col)) = true) := by
          rw [hv]
          exact Bool.false_ne_true
        rw [hunfold, if_neg hv2]
        obtain ⟨re2, hlen2, hpass⟩ := ihsome hanyL
        refine ⟨re2, ?_, hpass⟩
        rw [hextCons]
        rw [hextL'] at hlen2
        exact hlen2

/-! ## Classifier column lists and scratch-name stability -/

theorem dedup_foldl_mem (P : String → Prop) :
    ∀ (l : List String) (acc : List String),
      (∀ x ∈ acc, P x) → (∀ x ∈ l, P x) →
      ∀ x ∈ l.foldl (fun acc c => if acc.contains c then acc else acc ++ [c]) acc, P x := by
  intro l
  induction l with
  | nil =>
    intro acc ha _ x hx
    exact ha x hx
  | cons c l ih =>
    intro acc ha hl x hx
    rw [List.foldl_cons] at hx
    cases hcc : acc.contains c with
    | false =>
      have hni : ¬(acc.contains c = true) := by
        rw [hcc]
        exact Bool.false_ne_true
      rw [if_neg hni] at hx
      refine ih (acc ++ [c]) ?_ (fun y hy => hl y (List.mem_cons_of_mem _ hy)) x hx
      intro y hy
      rcases List.mem_append.mp hy with h | h
      · exact ha y h
      · rw [List.mem_singleton.mp h]
        exact hl c (List.mem_cons_self c l)
    | true =>
      rw [if_pos hcc] at hx
      exact ih acc ha (fun y hy => hl y (List.mem_cons_of_mem _ hy)) x hx

theorem emailColsOf_sub (cols : List String) : ∀ c ∈ emailColsOf cols, c ∈ cols := by
  unfold emailColsOf
  apply dedup_foldl_mem
  · intro x hx
    cases hf : find_col cols ["email"] with
    | none => rw [hf] at hx; exact absurd hx (List.not_mem_nil x)
    | some c0 =>
      rw [hf] at hx
      rw [List.mem_singleton.mp hx]
      exact List.mem_of_find?_eq_some hf
  · intro x hx
    exact (List.mem_filter.mp hx).1

theorem phoneColsOf_sub (cols : List String) : ∀ c ∈ phoneColsOf cols, c ∈ cols := by
  intro c hc
  exact (List.mem_filter.mp hc).1

theorem domainColsOf_sub (cols : List String) : ∀ c ∈ domainColsOf cols, c ∈ cols := by
  intro c hc
  exact (List.mem_filter.mp hc).1

theorem mem_extAfter (scratch : String) (ext L : List String) :
    ∀ c ∈ extAfter scratch ext L, c ∈ ext ∨ c = scratch := by
  intro c hc
  cases L with
  | nil => exact Or.inl hc
  | cons x xs =>
    unfold extAfter at hc
    by_cases h : ext.contains scratch = true
    · rw [if_pos h] at hc
      exact Or.inl hc
    · rw [if_neg h] at hc
      rcases List.mem_append.mp hc with h1 | h1
      · exact Or.inl h1
      · exact Or.inr (List.mem_singleton.mp h1)

theorem phoneColsOf_append_email (cols0 ext : List String)
    (hext : ∀ c ∈ ext, c = "__email") :
    phoneColsOf (cols0 ++ ext) = phoneColsOf cols0 := by
  unfold phoneColsOf
  rw [List.filter_append]
  have hnil : ext.filter (fun c => hasSub (pyLower c) "phone") = [] := by
    rw [List.filter_eq_nil_iff]
    intro c hc
    rw [hext c hc]
    decide
  rw [hnil, List.append_nil]

theorem domainColsOf_append_scratch (cols0 ext : List String)
    (hext : ∀ c ∈ ext, c = "__email" ∨ c = "__phone") :
    domainColsOf (cols0 ++ ext) = domainColsOf cols0 := by
  unfold domainColsOf
  rw [List.filter_append]
  have hnil : ext.filter (fun c => domainPats.any (fun p => hasSub (pyLower c) p)) = [] := by
    rw [List.filter_eq_nil_iff]
    intro c hc
    rcases hext c hc with h | h <;> rw [h] <;> decide
  rw [hnil, List.append_nil]

/-! ## The whole `clean_chunk` pipeline on one row of a frame without `__` columns -/

theorem chainRow_spec (tld : String → TldExtractResult) (sup : Suppression) (cols : List String)
    (hdun : ∀ c ∈ cols, isScratchName c = false) (r : List Value) (hr : r.length = cols.length) :
    (emailHit sup cols r = true → rowE sup cols r = none) ∧
    (emailHit sup cols r = false → ∃ r1,
      rowE sup cols r = some r1 ∧
      (phoneHit sup cols r = true → rowP sup cols r1 = none) ∧
      (phoneHit sup cols r = false → ∃ r2,
        rowP sup cols r1 = some r2 ∧
        (domainHit tld sup cols r = true → rowD tld sup cols r2 = none) ∧
        (domainHit tld sup cols r = false → ∃ r3,
          rowD tld sup cols r2 = some r3 ∧
          (((colsAfterD cols).zip r3).filter (fun p => !isScratchName p.1)).map Prod.snd = r))) := by
  have hsE : isScratchName "__email" = true := by decide
  have hsP : isScratchName "__phone" = true := by decide
  have hsD : isScratchName "__domain" = true := by decide
  have he := passRow_spec clean_email "__email" sup.emails hsE (emailColsOf cols) [] cols r []
    hdun (emailColsOf_sub cols) hr rfl
  simp only [List.append_nil] at he
  obtain ⟨heCols, heNone, heSome⟩ := he
  have hAE : colsAfterE cols = cols ++ extAfter "__email" [] (emailColsOf cols) := heCols
  have hext1 : ∀ c ∈ extAfter "__email" [] (emailColsOf cols), c = "__email" := by
    intro c hc
    rcases mem_extAfter "__email" [] (emailColsOf cols) c hc with h | h
    · exact absurd h (List.not_mem_nil c)
    · exact h
  have hphoneStable : phoneColsOf (cols ++ extAfter "__email" [] (emailColsOf cols)) =
      phoneColsOf cols :=
    phoneColsOf_append_email cols _ hext1
  refine ⟨fun hEH => heNone hEH, fun hEH => ?_⟩
  obtain ⟨re1, hre1len, hre1⟩ := heSome hEH
  refine ⟨r ++ re1, hre1, ?_⟩
  have hp := passRow_spec clean_phone "__phone" sup.phones hsP (phoneColsOf cols)
    (extAfter "__email" [] (emailColsOf cols)) cols r re1 hdun (phoneColsOf_sub cols) hr hre1len
  obtain ⟨hpCols, hpNone, hpSome⟩ := hp
  have hrowPeq : rowP sup cols (r ++ re1) =
      passRow clean_phone "__phone" sup.phones
        (cols ++ extAfter "__email" [] (emailColsOf cols)) (phoneColsOf cols) (r ++ re1) := by
    unfold rowP
    rw [hAE, hphoneStable]
  have hAP : colsAfterP cols =
      cols ++ extAfter "__phone" (extAfter "__email" [] (emailColsOf cols)) (phoneColsOf cols) := by
    unfold colsAfterP
    rw [hAE, hphoneStable]
    exact hpCols
  have hext2 : ∀ c ∈ extAfter "__phone" (extAfter "__email" [] (emailColsOf cols)) (phoneColsOf cols),
      c = "__email" ∨ c = "__phone" := by
    intro c hc
    rcases mem_extAfter "__phone" _ _ c hc with h | h
    · exact Or.inl (hext1 c h)
    · exact Or.inr h
  have hdomStable : domainColsOf
      (cols ++ extAfter "__phone" (extAfter "__email" [] (emailColsOf cols)) (phoneColsOf cols)) =
      domainColsOf cols :=
    domainColsOf_append_scratch cols _ hext2
  refine ⟨fun hPH => by rw [hrowPeq]; exact hpNone hPH, fun hPH => ?_⟩
  obtain ⟨re2, hre2len, hre2⟩ := hpSome hPH
  refine ⟨r ++ re2, by rw [hrowPeq]; exact hre2, ?_⟩
  have hd := passRow_spec (clean_domain tld) "__domain" sup.domains hsD (domainColsOf cols)
    (extAfter "__phone" (extAfter "__email" [] (emailColsOf cols)) (phoneColsOf cols))
    cols r re2 hdun (domainColsOf_sub cols) hr hre2len
  obtain ⟨hdCols, hdNone, hdSome⟩ := hd
  have hrowDeq : rowD tld sup cols (r ++ re2) =
      passRow (clean_domain tld) "__domain" sup.domains
        (cols ++ extAfter "__phone" (extAfter "__email" [] (emailColsOf cols)) (phoneColsOf cols))
        (domainColsOf cols) (r ++ re2) := by
    unfold rowD
    rw [hAP, hdomStable]
  have hAD : colsAfterD cols = cols ++
      extAfter "__domain"
        (extAfter "__phone" (extAfter "__email" [] (emailColsOf cols)) (phoneColsOf cols))
        (domainColsOf cols) := by
    unfold colsAfterD
    rw [hAP, hdomStable]
    exact hdCols
  have hext3 : ∀ c ∈ extAfter "__domain"
      (extAfter "__phone" (extAfter "__email" [] (emailColsOf cols)) (phoneColsOf cols))
      (domainColsOf cols), isScratchName c = true := by
    intro c hc
    rcases mem_extAfter "__domain" _ _ c hc with h | h
    · rcases hext2 c h with h1 | h1 <;> rw [h1]
      · exact hsE
      · exact hsP
    · rw [h]
      exact hsD
  refine ⟨fun hDH => by rw [hrowDeq]; exact hdNone hDH, fun hDH => ?_⟩
  obtain ⟨re3, hre3len, hre3⟩ := hdSome hDH
  refine ⟨r ++ re3, by rw [hrowDeq]; exact hre3, ?_⟩
  rw [hAD, List.zip_append hr.symm, List.filter_append]
  have hkeep : ((cols.zip r).filter (fun p => !isScratchName p.1)) = cols.zip r := by
    rw [List.filter_eq_self]
    intro p hp
    obtain ⟨a, b⟩ := p
    have h1 : a ∈ cols := (List.of_mem_zip hp).1
    rw [hdun a h1]
    rfl
  have hdrop : ((extAfter "__domain"
      (extAfter "__phone" (extAfter "__email" [] (emailColsOf cols)) (phoneColsOf cols))
      (domainColsOf cols)).zip re3).filter (fun p => !isScratchName p.1) = [] := by
    rw [List.filter_eq_nil_iff]
    intro p hp
    obtain ⟨a, b⟩ := p
    have h1 := (List.of_mem_zip hp).1
    rw [hext3 a h1]
    simp
  rw [hkeep, hdrop, List.append_nil]
  exact List.map_snd_zip cols r hr.le

theorem chainList_spec (tld : String → TldExtractResult) (sup : Suppression) (cols : List String)
    (hdun : ∀ c ∈ cols, isScratchName c = false) :
    ∀ rows : List (List Value), (∀ r ∈ rows, r.length = cols.length) →
    ((((rows.filterMap (rowE sup cols)).filterMap (rowP sup cols)).filterMap
        (rowD tld sup cols)).map
        (fun r => (((colsAfterD cols).zip r).filter (fun p => !isScratchName p.1)).map Prod.snd) =
      rows.filter (survivesRow tld sup cols)) ∧
    (rows.countP (fun r => (rowE sup cols r).isNone) = rows.countP (emailHit sup cols)) ∧
    ((rows.filterMap (rowE sup cols)).countP (fun r => (rowP sup cols r).isNone) =
      rows.countP (fun r => !emailHit sup cols r && phoneHit sup cols r)) ∧
    (((rows.filterMap (rowE sup cols)).filterMap (rowP sup cols)).countP
        (fun r => (rowD tld sup cols r).isNone) =
      rows.countP (fun r =>
        !emailHit sup cols r && !phoneHit sup cols r && domainHit tld sup cols r)) := by
  intro rows
  induction rows with
  | nil => intro _; exact ⟨rfl, rfl, rfl, rfl⟩
  | cons r rows ih =>
    intro hrect
    have hr : r.length = cols.length := hrect r (List.mem_cons_self r rows)
    have hrest : ∀ x ∈ rows, x.length = cols.length :=
      fun x hx => hrect x (List.mem_cons_of_mem r hx)
    obtain ⟨ih1, ih2, ih3, ih4⟩ := ih hrest
    obtain ⟨cr1, cr2⟩ := chainRow_spec tld sup cols hdun r hr
    cases hEH : emailHit sup cols r with
    | true =>
      have hre : rowE sup cols r = none := cr1 hEH
      have hsv : survivesRow tld sup cols r = false := by
        unfold survivesRow
        rw [hEH]
        rfl
      refine ⟨?_, ?_, ?_, ?_⟩
      · simp only [List.filterMap_cons, hre, List.filter_cons, hsv, Bool.false_eq_true,
          if_false, ih1]
      · simp [List.countP_cons, hre, hEH, ih2]
      · simp only [List.filterMap_cons, hre, List.countP_cons, hEH, ih3]
        simp
      · simp only [List.filterMap_cons, hre, List.countP_cons, hEH, ih4]
        simp
    | false =>
      obtain ⟨r1, hre, cp1, cp2⟩ := cr2 hEH
      cases hPH : phoneHit sup cols r with
      | true =>
        have hrp : rowP sup cols r1 = none := cp1 hPH
        have hsv : survivesRow tld sup cols r = false := by
          unfold survivesRow
          rw [hPH, hEH]
          rfl
        refine ⟨?_, ?_, ?_, ?_⟩
        · simp only [List.filterMap_cons, hre, hrp, List.filter_cons, hsv, Bool.false_eq_true,
            if_false, ih1]
        · simp [List.countP_cons, hre, hEH, ih2]
        · simp [List.filterMap_cons, hre, List.countP_cons, hrp, hEH, hPH, ih3]
        · simp [List.filterMap_cons, hre, hrp, List.countP_cons, hEH, hPH, ih4]
      | false =>
        obtain ⟨r2, hrp, cd1, cd2⟩ := cp2 hPH
        cases hDH : domainHit tld sup cols r with
        | true =>
          have hrd : rowD tld sup cols r2 = none := cd1 hDH
          have hsv : survivesRow tld sup cols r = false := by
            unfold survivesRow
            rw [hDH, hEH, hPH]
            rfl
          refine ⟨?_, ?_, ?_, ?_⟩
          · simp only [List.filterMap_cons, hre, hrp, hrd, List.filter_cons, hsv,
              Bool.false_eq_true, if_false, ih1]
          · simp [List.countP_cons, hre, hEH, ih2]
          · simp [List.filterMap_cons, hre, List.countP_cons, hrp, hEH, hPH, ih3]
          · simp [List.filterMap_cons, hre, hrp, List.countP_cons, hrd, hEH, hPH, hDH, ih4]
        | false =>
          obtain ⟨r3, hrd, hproj⟩ := cd2 hDH
          have hsv : survivesRow tld sup cols r = true := by
            unfold survivesRow
            rw [hDH, hEH, hPH]
            rfl
          refine ⟨?_, ?_, ?_, ?_⟩
          · simp only [List.filterMap_cons, hre, hrp, hrd, List.map_cons, hproj,
              List.filter_cons, hsv, if_true, ih1]
          · simp [List.countP_cons, hre, hEH, ih2]
          · simp [List.filterMap_cons, hre, List.countP_cons, hrp, hEH, hPH, ih3]
          · simp [List.filterMap_cons, hre, hrp, List.countP_cons, hrd, hEH, hPH, hDH, ih4]

theorem colsAfterD_shape (cols : List String) (hdun : ∀ c ∈ cols, isScratchName c = false) :
    ∃ ext, colsAfterD cols = cols ++ ext ∧ ∀ c ∈ ext, isScratchName c = true := by
  have hsE : isScratchName "__email" = true := by decide
  have hsP : isScratchName "__phone" = true := by decide
  have hsD : isScratchName "__domain" = true := by decide
  have hrlen : (List.replicate cols.length (none : Value)).length = cols.length :=
    List.length_replicate cols.length none
  have he := (passRow_spec clean_email "__email" [] hsE (emailColsOf cols) [] cols
    (List.replicate cols.length none) [] hdun (emailColsOf_sub cols) hrlen rfl).1
  simp only [List.append_nil] at he
  have hAE : colsAfterE cols = cols ++ extAfter "__email" [] (emailColsOf cols) := he
  have hext1 : ∀ c ∈ extAfter "__email" [] (emailColsOf cols), c = "__email" := by
    intro c hc
    rcases mem_extAfter "__email" [] (emailColsOf cols) c hc with h | h
    · exact absurd h (List.not_mem_nil c)
    · exact h
  have hphoneStable : phoneColsOf (cols ++ extAfter "__email" [] (emailColsOf cols)) =
      phoneColsOf cols :=
    phoneColsOf_append_email cols _ hext1
  have hp := (passRow_spec clean_phone "__phone" [] hsP (phoneColsOf cols)
    (extAfter "__email" [] (emailColsOf cols)) cols (List.replicate cols.length none)
    (List.replicate (extAfter "__email" [] (emailColsOf cols)).length none)
    hdun (phoneColsOf_sub cols) hrlen
    (List.length_replicate (extAfter "__email" [] (emailColsOf cols)).length none)).1
  have hAP : colsAfterP cols =
      cols ++ extAfter "__phone" (extAfter "__email" [] (emailColsOf cols)) (phoneColsOf cols) := by
    unfold colsAfterP
    rw [hAE, hphoneStable]
    exact hp
  have hext2 : ∀ c ∈ extAfter "__phone" (extAfter "__email" [] (emailColsOf cols))
      (phoneColsOf cols), c = "__email" ∨ c = "__phone" := by
    intro c hc
    rcases mem_extAfter "__phone" _ _ c hc with h | h
    · exact Or.inl (hext1 c h)
    · exact Or.inr h
  have hdomStable : domainColsOf
      (cols ++ extAfter "__phone" (extAfter "__email" [] (emailColsOf cols)) (phoneColsOf cols)) =
      domainColsOf cols :=
    domainColsOf_append_scratch cols _ hext2
  have hd := (passRow_spec (clean_domain (fun _ => ⟨"", "", ""⟩)) "__domain" [] hsD
    (domainColsOf cols)
    (extAfter "__phone" (extAfter "__email" [] (emailColsOf cols)) (phoneColsOf cols))
    cols (List.replicate cols.length none)
    (List.replicate (extAfter "__phone" (extAfter "__email" [] (emailColsOf cols))
      (phoneColsOf cols)).length none)
    hdun (domainColsOf_sub cols) hrlen
    (List.length_replicate (extAfter "__phone" (extAfter "__email" [] (emailColsOf cols))
      (phoneColsOf cols)).length none)).1
  have hAD : colsAfterD cols = cols ++
      extAfter "__domain"
        (extAfter "__phone" (extAfter "__email" [] (emailColsOf cols)) (phoneColsOf cols))
        (domainColsOf cols) := by
    unfold colsAfterD
    rw [hAP, hdomStable]
    exact hd
  refine ⟨_, hAD, ?_⟩
  intro c hc
  rcases mem_extAfter "__domain" _ _ c hc with h | h
  · rcases hext2 c h with h1 | h1 <;> rw [h1]
    · exact hsE
    · exact hsP
  · rw [h]
    exact hsD

theorem clean_chunk_nice (tld : String → TldExtractResult) (sup : Suppression)
    (cols : List String) (rows : List (List Value))
    (hdun : ∀ c ∈ cols, isScratchName c = false)
    (hrect : ∀ r ∈ rows, r.length = cols.length) :
    clean_chunk tld ⟨cols, rows⟩ sup =
      (⟨cols, rows.filter (survivesRow tld sup cols)⟩,
       rows.countP (emailHit sup cols),
       rows.countP (fun r => !emailHit sup cols r && phoneHit sup cols r),
       rows.countP (fun r =>
         !emailHit sup cols r && !phoneHit sup cols r && domainHit tld sup cols r)) := by
  rw [clean_chunk_eq]
  obtain ⟨h1, h2, h3, h4⟩ := chainList_spec tld sup cols hdun rows hrect
  obtain ⟨ext, hsh, hscr⟩ := colsAfterD_shape cols hdun
  rw [h2, h3, h4]
  congr 1
  unfold dropScratch
  simp only []
  congr 1
  · rw [hsh, List.filter_append]
    have hk : cols.filter (fun c => !isScratchName c) = cols :=
      List.filter_eq_self.mpr (fun c hc => by rw [hdun c hc]; rfl)
    have hd2 : ext.filter (fun c => !isScratchName c) = [] :=
      List.filter_eq_nil_iff.mpr (fun c hc => by rw [hscr c hc]; simp)
    rw [hk, hd2, List.append_nil]

/-- C10 is false as stated: for the batch with the single column `__notes`
(no classified columns, empty suppression sets) the row survives filtering,
but the final scratch-column selection drops the original `__notes` column,
so the surviving batch `[[]]` is not a subsequence of the input `[[some "x"]]`
— the emitted row is not an input row. -/
theorem C10_counterexample :
    (clean_chunk tldNull ⟨["__notes"], [[some "x"]]⟩ ⟨[], [], []⟩).1.rows = [[]] ∧
    ¬ ((clean_chunk tldNull ⟨["__notes"], [[some "x"]]⟩ ⟨[], [], []⟩).1.rows.Sublist
      [[some "x"]]) := by
  decide

/-- C10 (amended): for a batch none of whose column names starts with `__`,
the surviving batch of `clean_chunk` is a subsequence of the input batch —
no row is added, duplicated or reordered, and every surviving row is an
input row in the original relative order. -/
theorem C10_amended_subsequence (tld : String → TldExtractResult) (sup : Suppression)
    (cols : List String) (rows : List (List Value))
    (hdun : ∀ c ∈ cols, isScratchName c = false)
    (hrect : ∀ r ∈ rows, r.length = cols.length) :
    ((clean_chunk tld ⟨cols, rows⟩ sup).1.rows).Sublist rows := by
  rw [clean_chunk_nice tld sup cols rows hdun hrect]
  exact List.filter_sublist rows

theorem C10_witness :
    ((clean_chunk tldNull ⟨["Email"], [[some "a@b.c"], [some "d@e.f"]]⟩
      ⟨[some "a@b.c"], [], []⟩).1.rows).Sublist [[some "a@b.c"], [some "d@e.f"]] :=
  C10_amended_subsequence tldNull ⟨[some "a@b.c"], [], []⟩ ["Email"]
    [[some "a@b.c"], [some "d@e.f"]] (by decide) (by decide)

/-- C1 is false as stated: in the batch with the single column `__notes`
(classified by no category) and empty suppression sets, the row's
normalized values belong to none of the three sets, yet the surviving
batch does not contain the row unchanged with all its original columns —
the final scratch-column selection also drops the original column
`__notes`, leaving column list `[]` and row `[]`. -/
theorem C1_counterexample :
    survivesRow tldNull ⟨[], [], []⟩ ["__notes"] [some "x"] = true ∧
    (clean_chunk tldNull ⟨["__notes"], [[some "x"]]⟩ ⟨[], [], []⟩).1.cols = [] ∧
    (clean_chunk tldNull ⟨["__notes"], [[some "x"]]⟩ ⟨[], [], []⟩).1.rows = [[]] := by
  decide

/-- C1 (amended): for a batch none of whose column names starts with `__`,
a row whose value in a column classified as Email normalizes into the email
suppression set is removed; the output has exactly the original columns in
the original order and its rows are exactly the input rows hit by no
category, unchanged; no scratch column appears in the output. -/
theorem C1_amended_set_membership (tld : String → TldExtractResult) (sup : Suppression)
    (cols : List String) (rows : List (List Value))
    (hdun : ∀ c ∈ cols, isScratchName c = false)
    (hrect : ∀ r ∈ rows, r.length = cols.length) :
    (clean_chunk tld ⟨cols, rows⟩ sup).1.cols = cols ∧
    (clean_chunk tld ⟨cols, rows⟩ sup).1.rows = rows.filter (survivesRow tld sup cols) ∧
    (∀ r ∈ rows, ∀ c ∈ emailColsOf cols,
      sup.emails.contains (clean_email (rowGet cols r c)) = true →
      ¬ r ∈ (clean_chunk tld ⟨cols, rows⟩ sup).1.rows) ∧
    (∀ r ∈ rows, survivesRow tld sup cols r = true →
      r ∈ (clean_chunk tld ⟨cols, rows⟩ sup).1.rows) := by
  rw [clean_chunk_nice tld sup cols rows hdun hrect]
  refine ⟨rfl, rfl, ?_, ?_⟩
  · intro r hr c hc hmem hin
    have hs := (List.mem_filter.mp hin).2
    have hhit : emailHit sup cols r = true := by
      unfold emailHit
      rw [List.any_eq_true]
      exact ⟨c, hc, hmem⟩
    unfold survivesRow at hs
    rw [hhit] at hs
    simp at hs
  · intro r hr hsv
    exact List.mem_filter.mpr ⟨hr, hsv⟩

theorem C1_witness :
    (clean_chunk tldNull ⟨["Email"], [[some "Jane@X.com"], [some "bob@y.com"]]⟩
      ⟨[some "jane@x.com"], [], []⟩).1.cols = ["Email"] ∧
    (clean_chunk tldNull ⟨["Email"], [[some "Jane@X.com"], [some "bob@y.com"]]⟩
      ⟨[some "jane@x.com"], [], []⟩).1.rows =
      [[some "Jane@X.com"], [some "bob@y.com"]].filter
        (survivesRow tldNull ⟨[some "jane@x.com"], [], []⟩ ["Email"]) ∧
    (∀ r ∈ [[some "Jane@X.com"], [some "bob@y.com"]], ∀ c ∈ emailColsOf ["Email"],
      (Suppression.emails ⟨[some "jane@x.com"], [], []⟩).contains
          (clean_email (rowGet ["Email"] r c)) = true →
      ¬ r ∈ (clean_chunk tldNull ⟨["Email"], [[some "Jane@X.com"], [some "bob@y.com"]]⟩
        ⟨[some "jane@x.com"], [], []⟩).1.rows) ∧
    (∀ r ∈ [[some "Jane@X.com"], [some "bob@y.com"]],
      survivesRow tldNull ⟨[some "jane@x.com"], [], []⟩ ["Email"] r = true →
      r ∈ (clean_chunk tldNull ⟨["Email"], [[some "Jane@X.com"], [some "bob@y.com"]]⟩
        ⟨[some "jane@x.com"], [], []⟩).1.rows) :=
  C1_amended_set_membership tldNull ⟨[some "jane@x.com"], [], []⟩ ["Email"]
    [[some "Jane@X.com"], [some "bob@y.com"]] (by decide) (by decide)

/-! ## The Suppression Set Builder's `elif` chain -/

theorem loadCols_fold (tld : String → TldExtractResult) (df : Frame) :
    ∀ (cs : List String) (st : Suppression × List String),
    ((cs.foldl (loadColsStep tld df) st).1).emails =
      st.1.emails ++ ((cs.filter isEmailName).map (emailContrib df)).flatten ∧
    ((cs.foldl (loadColsStep tld df) st).1).phones =
      st.1.phones ++ ((cs.filter (fun c => !isEmailName c && isPhoneName c)).map
        (phoneContrib df)).flatten ∧
    ((cs.foldl (loadColsStep tld df) st).1).domains =
      st.1.domains ++ ((cs.filter (fun c =>
        !isEmailName c && !isPhoneName c && isDomainName c)).map
        (domainContrib tld df)).flatten := by
  intro cs
  induction cs with
  | nil => intro st; simp
  | cons c cs ih =>
    intro st
    rw [List.foldl_cons]
    by_cases hE : isEmailName c = true
    · have hstep : loadColsStep tld df st c =
          ({ st.1 with emails := st.1.emails ++ emailContrib df c }, st.2 ++ [c]) := by
        simp [loadColsStep, hE]
      rw [hstep]
      obtain ⟨i1, i2, i3⟩ := ih ({ st.1 with emails := st.1.emails ++ emailContrib df c }, st.2 ++ [c])
      refine ⟨?_, ?_, ?_⟩
      · rw [i1]
        simp [List.filter_cons, hE, List.append_assoc]
      · rw [i2]
        simp [List.filter_cons, hE]
      · rw [i3]
        simp [List.filter_cons, hE]
    · by_cases hP : isPhoneName c = true
      · have hstep : loadColsStep tld df st c =
            ({ st.1 with phones := st.1.phones ++ phoneContrib df c }, st.2 ++ [c]) := by
          simp [loadColsStep, hE, hP]
        rw [hstep]
        obtain ⟨i1, i2, i3⟩ :=
          ih ({ st.1 with phones := st.1.phones ++ phoneContrib df c }, st.2 ++ [c])
        refine ⟨?_, ?_, ?_⟩
        · rw [i1]
          simp [List.filter_cons, hE]
        · rw [i2]
          simp [List.filter_cons, hE, hP, List.append_assoc]
        · rw [i3]
          simp [List.filter_cons, hE, hP]
      · by_cases hD : isDomainName c = true
        · have hstep : loadColsStep tld df st c =
              ({ st.1 with domains := st.1.domains ++ domainContrib tld df c }, st.2 ++ [c]) := by
            simp [loadColsStep, hE, hP, hD]
          rw [hstep]
          obtain ⟨i1, i2, i3⟩ :=
            ih ({ st.1 with domains := st.1.domains ++ domainContrib tld df c }, st.2 ++ [c])
          refine ⟨?_, ?_, ?_⟩
          · rw [i1]
            simp [List.filter_cons, hE]
          · rw [i2]
            simp [List.filter_cons, hE, hP]
          · rw [i3]
            simp [List.filter_cons, hE, hP, hD, List.append_assoc]
        · have hstep : loadColsStep tld df st c = st := by
            simp [loadColsStep, hE, hP, hD]
          rw [hstep]
          obtain ⟨i1, i2, i3⟩ := ih st
          refine ⟨?_, ?_, ?_⟩
          · rw [i1]
            simp [List.filter_cons, hE]
          · rw [i2]
            simp [List.filter_cons, hE, hP]
          · rw [i3]
            simp [List.filter_cons, hE, hP, hD]

theorem load_fold (tld : String → TldExtractResult) :
    ∀ (files : List SupFile) (acc : Suppression × List String),
    (files.foldl
      (fun acc f =>
        match f.parsed with
        | some df =>
          let res := df.cols.foldl (loadColsStep tld df) (acc.1, [])
          (res.1, acc.2 ++ ["ok " ++ f.name])
        | none => (acc.1, acc.2 ++ ["skip " ++ f.name])) acc).1.emails =
      acc.1.emails ++ (files.map (fun f =>
        match f.parsed with
        | some df => ((df.cols.filter isEmailName).map (emailContrib df)).flatten
        | none => [])).flatten ∧
    (files.foldl
      (fun acc f =>
        match f.parsed with
        | some df =>
          let res := df.cols.foldl (loadColsStep tld df) (acc.1, [])
          (res.1, acc.2 ++ ["ok " ++ f.name])
        | none => (acc.1, acc.2 ++ ["skip " ++ f.name])) acc).1.phones =
      acc.1.phones ++ (files.map (fun f =>
        match f.parsed with
        | some df => ((df.cols.filter (fun c => !isEmailName c && isPhoneName c)).map
            (phoneContrib df)).flatten
        | none => [])).flatten ∧
    (files.foldl
      (fun acc f =>
        match f.parsed with
        | some df =>
          let res := df.cols.foldl (loadColsStep tld df) (acc.1, [])
          (res.1, acc.2 ++ ["ok " ++ f.name])
        | none => (acc.1, acc.2 ++ ["skip " ++ f.name])) acc).1.domains =
      acc.1.domains ++ (files.map (fun f =>
        match f.parsed with
        | some df => ((df.cols.filter (fun c =>
            !isEmailName c && !isPhoneName c && isDomainName c)).map
            (domainContrib tld df)).flatten
        | none => [])).flatten := by
  intro files
  induction files with
  | nil => intro acc; simp
  | cons f files ih =>
    intro acc
    rw [List.foldl_cons]
    cases hp : f.parsed with
    | none =>
      obtain ⟨i1, i2, i3⟩ := ih (acc.1, acc.2 ++ ["skip " ++ f.name])
      simp only [hp]
      exact ⟨by rw [i1]; simp [hp], by rw [i2]; simp [hp], by rw [i3]; simp [hp]⟩
    | some df =>
      obtain ⟨l1, l2, l3⟩ := loadCols_fold tld df df.cols (acc.1, [])
      obtain ⟨i1, i2, i3⟩ := ih ((df.cols.foldl (loadColsStep tld df) (acc.1, [])).1,
        acc.2 ++ ["ok " ++ f.name])
      simp only [hp]
      refine ⟨?_, ?_, ?_⟩
      · rw [i1, l1]
        simp [hp, List.append_assoc]
      · rw [i2, l2]
        simp [hp, List.append_assoc]
      · rw [i3, l3]
        simp [hp, List.append_assoc]

/-- C7 is false as stated: in the Suppression Set Builder the reference
column `email phone` matches both the email and the phone category, but
the `elif` chain sends its values only to the email set — the phone set
stays empty, whereas the claim requires it to contain the normalized
value `123`. -/
theorem C7_counterexample :
    isEmailName "email phone" = true ∧
    isPhoneName "email phone" = true ∧
    (load_suppression_data tldNull [⟨"s", some ⟨["email phone"], [[some "12 3"]]⟩⟩]).1.emails =
      [some "123"] ∧
    (load_suppression_data tldNull [⟨"s", some ⟨["email phone"], [[some "12 3"]]⟩⟩]).1.phones =
      [] := by
  decide

/-- C7 (amended): in the Suppression Set Builder each column of a parsed
reference file is assigned to at most one category, the first match in the
fixed order email, phone, domain (the `if`/`elif` chain): the email set
collects every column whose name contains `email`; the phone set only the
columns containing `phone` but not `email`; the domain set only the
columns matching a domain pattern but containing neither `email` nor
`phone`. -/
theorem C7_amended_elif_precedence (tld : String → TldExtractResult) (files : List SupFile) :
    (load_suppression_data tld files).1.emails =
      (files.map (fun f =>
        match f.parsed with
        | some df => ((df.cols.filter isEmailName).map (emailContrib df)).flatten
        | none => [])).flatten ∧
    (load_suppression_data tld files).1.phones =
      (files.map (fun f =>
        match f.parsed with
        | some df => ((df.cols.filter (fun c => !isEmailName c && isPhoneName c)).map
            (phoneContrib df)).flatten
        | none => [])).flatten ∧
    (load_suppression_data tld files).1.domains =
      (files.map (fun f =>
        match f.parsed with
        | some df => ((df.cols.filter (fun c =>
            !isEmailName c && !isPhoneName c && isDomainName c)).map
            (domainContrib tld df)).flatten
        | none => [])).flatten := by
  obtain ⟨h1, h2, h3⟩ := load_fold tld files (⟨[], [], []⟩, [])
  exact ⟨h1, h2, h3⟩

/-- C3 is violated by the code: `clean_phone` maps an all-non-digit value
to the empty string, not to absent; the builder inserts that empty string
into the phone set (suppression value `n/a`), and the filter then removes
a target row whose phone value `--` also strips to empty — a value the
spec calls absent causes a removal. -/
theorem C3_code_divergence :
    clean_phone (some "n/a") = some "" ∧
    (load_suppression_data tldNull [⟨"s", some ⟨["Phone"], [[some "n/a"]]⟩⟩]).1.phones =
      [some ""] ∧
    clean_chunk tldNull ⟨["Phone"], [[some "--"]]⟩
      (load_suppression_data tldNull [⟨"s", some ⟨["Phone"], [[some "n/a"]]⟩⟩]).1 =
      (⟨["Phone"], []⟩, 0, 1, 0) := by
  decide

/-- C8 is violated by the code: `clean_domain` only checks the extracted
domain label. For `localhost` (unknown suffix, nonempty label) it returns
the best-effort guess `localhost.` instead of absent; for a bare public
suffix (`com`) it returns absent, but that absent value is inserted into
the domain suppression set, and a target row whose `uk` value also
normalizes to absent is then removed because the set contains the absent
marker. -/
theorem C8_code_divergence :
    clean_domain tldModel (some "localhost") = some "localhost." ∧
    clean_domain tldModel (some "com") = none ∧
    (load_suppression_data tldModel [⟨"s", some ⟨["Domain"], [[some "com"]]⟩⟩]).1.domains =
      [none] ∧
    clean_domain tldModel (some "uk") = none ∧
    (clean_chunk tldModel ⟨["Domain"], [[some "uk"]]⟩
      (load_suppression_data tldModel [⟨"s", some ⟨["Domain"], [[some "com"]]⟩⟩]).1).1.rows =
      [] := by
  decide

/-! ## Per-file failure isolation in `process_files` -/

theorem runChunks_of_fail (tld : String → TldExtractResult) (sup : Suppression)
    (cols : List String) :
    ∀ (chunks : List (Option (List (List Value)))) (st : FileState),
    chunks.any (fun c => c.isNone) = true →
    runChunks tld sup cols chunks st = none := by
  intro chunks
  induction chunks with
  | nil => intro st h; simp at h
  | cons c chunks ih =>
    intro st h
    cases c with
    | none => rfl
    | some ch =>
      have h2 : chunks.any (fun c => c.isNone) = true := by
        simpa using h
      exact ih (stepChunk tld sup cols st ch) h2

theorem runChunks_of_no_fail (tld : String → TldExtractResult) (sup : Suppression)
    (cols : List String) :
    ∀ (chunks : List (Option (List (List Value)))) (st : FileState),
    chunks.any (fun c => c.isNone) = false →
    runChunks tld sup cols chunks st =
      some (runChunksOk tld sup cols (chunks.filterMap id) st) := by
  intro chunks
  induction chunks with
  | nil => intro st _; rfl
  | cons c chunks ih =>
    intro st h
    cases c with
    | none => simp at h
    | some ch =>
      have h2 : chunks.any (fun c => c.isNone) = false := by
        simpa using h
      exact ih (stepChunk tld sup cols st ch) h2

theorem dictSet_fresh {β : Type} (d : List (String × β)) (k : String) (v : β)
    (h : ∀ p ∈ d, p.1 ≠ k) : dictSet d k v = d ++ [(k, v)] := by
  unfold dictSet
  have hany : d.any (fun p => p.1 == k) = false := by
    cases ha : d.any (fun p => p.1 == k) with
    | false => rfl
    | true =>
      obtain ⟨p, hp, hpk⟩ := List.any_eq_true.mp ha
      exact absurd (by simpa using hpk) (h p hp)
  rw [if_neg (by rw [hany]; exact Bool.false_ne_true)]

theorem process_files_spec (tld : String → TldExtractResult) (sup : Suppression) :
    ∀ (files : List UFile) (accS : List SummaryRec) (accL : List String)
      (accC : List (String × FileState)),
      (∀ p ∈ accC, ∀ f ∈ files, p.1 ≠ f.name) →
      (files.map UFile.name).Nodup →
      files.foldl
        (fun acc f =>
          match runChunks tld sup f.cols f.chunks initFileState with
          | some st =>
            (acc.1 ++ [mkSummary f.name st],
             acc.2.1 ++ [okLog f.name (st.remE + st.remP + st.remD)],
             dictSet acc.2.2 f.name st)
          | none => (acc.1, acc.2.1 ++ [failLog f.name], acc.2.2)) (accS, accL, accC) =
      (accS ++ (files.filter (fun f => !fileFails f)).map
          (fun f => mkSummary f.name (runChunksOk tld sup f.cols (okChunks f) initFileState)),
       accL ++ files.map (fun f =>
          if fileFails f then failLog f.name
          else okLog f.name
            ((runChunksOk tld sup f.cols (okChunks f) initFileState).remE +
             (runChunksOk tld sup f.cols (okChunks f) initFileState).remP +
             (runChunksOk tld sup f.cols (okChunks f) initFileState).remD)),
       accC ++ (files.filter (fun f => !fileFails f)).map
          (fun f => (f.name, runChunksOk tld sup f.cols (okChunks f) initFileState))) := by
  intro files
  induction files with
  | nil =>
    intro accS accL accC _ _
    simp
  | cons f rest ih =>
    intro accS accL accC hdisj hnd
    rw [List.foldl_cons]
    have hndrest : (rest.map UFile.name).Nodup := (List.nodup_cons.mp (by simpa using hnd)).2
    have hfnotin : f.name ∉ rest.map UFile.name := (List.nodup_cons.mp (by simpa using hnd)).1
    cases hff : fileFails f with
    | true =>
      have hrc : runChunks tld sup f.cols f.chunks initFileState = none :=
        runChunks_of_fail tld sup f.cols f.chunks initFileState hff
      simp only [hrc]
      rw [ih accS (accL ++ [failLog f.name]) accC
        (fun p hp g hg => hdisj p hp g (List.mem_cons_of_mem f hg)) hndrest]
      simp [List.filter_cons, hff, List.append_assoc]
    | false =>
      have hrc : runChunks tld sup f.cols f.chunks initFileState =
          some (runChunksOk tld sup f.cols (okChunks f) initFileState) :=
        runChunks_of_no_fail tld sup f.cols f.chunks initFileState hff
      simp only [hrc]
      have hdict : dictSet accC f.name (runChunksOk tld sup f.cols (okChunks f) initFileState) =
          accC ++ [(f.name, runChunksOk tld sup f.cols (okChunks f) initFileState)] :=
        dictSet_fresh accC f.name _ (fun p hp => hdisj p hp f (List.mem_cons_self f rest))
      rw [hdict]
      have hdisj2 : ∀ p ∈ accC ++ [(f.name, runChunksOk tld sup f.cols (okChunks f)
          initFileState)], ∀ g ∈ rest, p.1 ≠ g.name := by
        intro p hp g hg
        rcases List.mem_append.mp hp with h1 | h1
        · exact hdisj p h1 g (List.mem_cons_of_mem f hg)
        · rw [List.mem_singleton.mp h1]
          intro he
          apply hfnotin
          have he2 : f.name = g.name := he
          rw [he2]
          exact List.mem_map_of_mem UFile.name hg
      rw [ih (accS ++ [mkSummary f.name (runChunksOk tld sup f.cols (okChunks f) initFileState)])
        (accL ++ [okLog f.name ((runChunksOk tld sup f.cols (okChunks f) initFileState).remE +
          (runChunksOk tld sup f.cols (okChunks f) initFileState).remP +
          (runChunksOk tld sup f.cols (okChunks f) initFileState).remD)])
        (accC ++ [(f.name, runChunksOk tld sup f.cols (okChunks f) initFileState)])
        hdisj2 hndrest]
      simp [List.filter_cons, hff, List.append_assoc]

theorem process_files_summary_logs (tld : String → TldExtractResult) (sup : Suppression) :
    ∀ (files : List UFile) (accS : List SummaryRec) (accL : List String)
      (accC : List (String × FileState)),
      (files.foldl
        (fun acc f =>
          match runChunks tld sup f.cols f.chunks initFileState with
          | some st =>
            (acc.1 ++ [mkSummary f.name st],
             acc.2.1 ++ [okLog f.name (st.remE + st.remP + st.remD)],
             dictSet acc.2.2 f.name st)
          | none => (acc.1, acc.2.1 ++ [failLog f.name], acc.2.2)) (accS, accL, accC)).1 =
        accS ++ (files.filter (fun f => !fileFails f)).map
          (fun f => mkSummary f.name (runChunksOk tld sup f.cols (okChunks f) initFileState)) ∧
      (files.foldl
        (fun acc f =>
          match runChunks tld sup f.cols f.chunks initFileState with
          | some st =>
            (acc.1 ++ [mkSummary f.name st],
             acc.2.1 ++ [okLog f.name (st.remE + st.remP + st.remD)],
             dictSet acc.2.2 f.name st)
          | none => (acc.1, acc.2.1 ++ [failLog f.name], acc.2.2)) (accS, accL, accC)).2.1 =
        accL ++ files.map (fun f =>
          if fileFails f then failLog f.name
          else okLog f.name
            ((runChunksOk tld sup f.cols (okChunks f) initFileState).remE +
             (runChunksOk tld sup f.cols (okChunks f) initFileState).remP +
             (runChunksOk tld sup f.cols (okChunks f) initFileState).remD)) := by
  intro files
  induction files with
  | nil =>
    intro accS accL accC
    simp
  | cons f rest ih =>
    intro accS accL accC
    rw [List.foldl_cons]
    cases hff : fileFails f with
    | true =>
      have hrc : runChunks tld sup f.cols f.chunks initFileState = none :=
        runChunks_of_fail tld sup f.cols f.chunks initFileState hff
      simp only [hrc]
      obtain ⟨i1, i2⟩ := ih accS (accL ++ [failLog f.name]) accC
      refine ⟨?_, ?_⟩
      · rw [i1]
        simp [List.filter_cons, hff]
      · rw [i2]
        simp [hff, List.append_assoc]
    | false =>
      have hrc : runChunks tld sup f.cols f.chunks initFileState =
          some (runChunksOk tld sup f.cols (okChunks f) initFileState) :=
        runChunks_of_no_fail tld sup f.cols f.chunks initFileState hff
      simp only [hrc]
      obtain ⟨i1, i2⟩ := ih
        (accS ++ [mkSummary f.name (runChunksOk tld sup f.cols (okChunks f) initFileState)])
        (accL ++ [okLog f.name ((runChunksOk tld sup f.cols (okChunks f) initFileState).remE +
          (runChunksOk tld sup f.cols (okChunks f) initFileState).remP +
          (runChunksOk tld sup f.cols (okChunks f) initFileState).remD)])
        (dictSet accC f.name (runChunksOk tld sup f.cols (okChunks f) initFileState))
      refine ⟨?_, ?_⟩
      · rw [i1]
        simp [List.filter_cons, hff, List.append_assoc]
      · rw [i2]
        simp [hff, List.append_assoc]

/-- C5: when the chunk stream of one target file among N fails to parse,
`process_files` emits no summary record for it (not even a partial one)
and appends a failure diagnostic, while every other file still receives
its complete summary record, so the summary table has exactly N − 1 rows;
when the file names are distinct, every other file's cleaned output is
also present in the returned output collection. -/
theorem C5_file_isolation (tld : String → TldExtractResult) (sup : Suppression)
    (files : List UFile)
    (hone : files.countP fileFails = 1) :
    (process_files tld sup files).1 =
      (files.filter (fun f => !fileFails f)).map
        (fun f => mkSummary f.name (runChunksOk tld sup f.cols (okChunks f) initFileState)) ∧
    (process_files tld sup files).1.length + 1 = files.length ∧
    (∀ f ∈ files, fileFails f = true → failLog f.name ∈ (process_files tld sup files).2.1) ∧
    ((files.map UFile.name).Nodup →
      (process_files tld sup files).2.2 =
        (files.filter (fun f => !fileFails f)).map
          (fun f => (f.name, runChunksOk tld sup f.cols (okChunks f) initFileState))) := by
  obtain ⟨hsum, hlog⟩ := process_files_summary_logs tld sup files [] [] []
  refine ⟨?_, ?_, ?_, ?_⟩
  · show (files.foldl _ ([], [], [])).1 = _
    rw [hsum]
    simp
  · show (files.foldl _ ([], [], [])).1.length + 1 = files.length
    rw [hsum]
    simp only [List.nil_append, List.length_map, ← List.countP_eq_length_filter]
    have h2 := countP_add_countP_not fileFails files
    omega
  · intro f hf hff
    show failLog f.name ∈ (files.foldl _ ([], [], [])).2.1
    rw [hlog]
    simp only [List.nil_append]
    have hmem := List.mem_map_of_mem (fun f =>
      if fileFails f then failLog f.name
      else okLog f.name
        ((runChunksOk tld sup f.cols (okChunks f) initFileState).remE +
         (runChunksOk tld sup f.cols (okChunks f) initFileState).remP +
         (runChunksOk tld sup f.cols (okChunks f) initFileState).remD)) hf
    simp only [hff, if_true] at hmem
    exact hmem
  · intro hnd
    have hs := process_files_spec tld sup files [] [] []
      (by intro p hp; simp at hp) hnd
    show (files.foldl _ ([], [], [])).2.2 = _
    rw [hs]
    simp

theorem C5_witness :
    (process_files tldNull ⟨[], [], []⟩
      [⟨"a", ["Email"], [some [[some "x@y.z"]]]⟩, ⟨"b", ["Email"], [none]⟩]).1 =
      ([⟨"a", ["Email"], [some [[some "x@y.z"]]]⟩,
        (⟨"b", ["Email"], [none]⟩ : UFile)].filter (fun f => !fileFails f)).map
        (fun f => mkSummary f.name
          (runChunksOk tldNull ⟨[], [], []⟩ f.cols (okChunks f) initFileState)) ∧
    (process_files tldNull ⟨[], [], []⟩
      [⟨"a", ["Email"], [some [[some "x@y.z"]]]⟩, ⟨"b", ["Email"], [none]⟩]).1.length + 1 =
      [⟨"a", ["Email"], [some [[some "x@y.z"]]]⟩,
        (⟨"b", ["Email"], [none]⟩ : UFile)].length ∧
    (∀ f ∈ [⟨"a", ["Email"], [some [[some "x@y.z"]]]⟩, (⟨"b", ["Email"], [none]⟩ : UFile)],
      fileFails f = true →
      failLog f.name ∈ (process_files tldNull ⟨[], [], []⟩
        [⟨"a", ["Email"], [some [[some "x@y.z"]]]⟩, ⟨"b", ["Email"], [none]⟩]).2.1) ∧
    (([⟨"a", ["Email"], [some [[some "x@y.z"]]]⟩,
        (⟨"b", ["Email"], [none]⟩ : UFile)].map UFile.name).Nodup →
      (process_files tldNull ⟨[], [], []⟩
        [⟨"a", ["Email"], [some [[some "x@y.z"]]]⟩, ⟨"b", ["Email"], [none]⟩]).2.2 =
        ([⟨"a", ["Email"], [some [[some "x@y.z"]]]⟩,
          (⟨"b", ["Email"], [none]⟩ : UFile)].filter (fun f => !fileFails f)).map
          (fun f => (f.name,
            runChunksOk tldNull ⟨[], [], []⟩ f.cols (okChunks f) initFileState))) :=
  C5_file_isolation tldNull ⟨[], [], []⟩
    [⟨"a", ["Email"], [some [[some "x@y.z"]]]⟩, ⟨"b", ["Email"], [none]⟩]
    (by decide)

/-! ## Temp-file lifecycle -/

theorem processFilesSys_spec (tld : String → TldExtractResult) (sup : Suppression) :
    ∀ (files : List UFile) (fs0 : List Nat) (k : Nat) (cleaned0 : List (String × Nat)),
    (∀ p ∈ fs0, p < k) →
    (∀ p ∈ cleaned0, ∀ f ∈ files, p.1 ≠ f.name) →
    (files.map UFile.name).Nodup →
    processFilesSys tld sup files ⟨fs0, k⟩ cleaned0 =
      (⟨fs0 ++ outPaths k files, k + 2 * files.length⟩, cleaned0 ++ succPairs k files) := by
  intro files
  induction files with
  | nil =>
    intro fs0 k cleaned0 _ _ _
    simp [processFilesSys, outPaths, succPairs]
  | cons f rest ih =>
    intro fs0 k cleaned0 hfs hdisj hnd
    have hndrest : (rest.map UFile.name).Nodup := (List.nodup_cons.mp (by simpa using hnd)).2
    have hfnotin : f.name ∉ rest.map UFile.name := (List.nodup_cons.mp (by simpa using hnd)).1
    have hrm : fsRemove ⟨fs0 ++ [k] ++ [k + 1], k + 2⟩ k = ⟨fs0 ++ [k + 1], k + 2⟩ := by
      unfold fsRemove
      congr 1
      rw [List.filter_append, List.filter_append]
      have h0 : fs0.filter (fun q => q != k) = fs0 :=
        List.filter_eq_self.mpr (fun p hp => by
          have := hfs p hp
          simp only [bne_iff_ne, ne_eq]
          omega)
      have h1 : ([k] : List Nat).filter (fun q => q != k) = [] := by simp
      have h2 : ([k + 1] : List Nat).filter (fun q => q != k) = [k + 1] := by
        simp
      rw [h0, h1, h2, List.append_nil]
    have hstep : processFilesSys tld sup (f :: rest) ⟨fs0, k⟩ cleaned0 =
        processFilesSys tld sup rest (fsRemove ⟨fs0 ++ [k] ++ [k + 1], k + 2⟩ k)
          (match runChunks tld sup f.cols f.chunks initFileState with
            | some _ => dictSet cleaned0 f.name (k + 1)
            | none => cleaned0) := rfl
    rw [hstep, hrm]
    have hfs2 : ∀ p ∈ fs0 ++ [k + 1], p < k + 2 := by
      intro p hp
      rcases List.mem_append.mp hp with h | h
      · have := hfs p h
        omega
      · rw [List.mem_singleton.mp h]
        omega
    cases hff : fileFails f with
    | true =>
      have hrc : runChunks tld sup f.cols f.chunks initFileState = none :=
        runChunks_of_fail tld sup f.cols f.chunks initFileState hff
      simp only [hrc]
      rw [ih (fs0 ++ [k + 1]) (k + 2) cleaned0 hfs2
        (fun p hp g hg => hdisj p hp g (List.mem_cons_of_mem f hg)) hndrest]
      congr 1
      · congr 1
        · simp [outPaths, List.append_assoc]
        · simp only [List.length_cons]
          omega
      · simp [succPairs, hff]
    | false =>
      have hrc : runChunks tld sup f.cols f.chunks initFileState =
          some (runChunksOk tld sup f.cols (okChunks f) initFileState) :=
        runChunks_of_no_fail tld sup f.cols f.chunks initFileState hff
      simp only [hrc]
      have hdict : dictSet cleaned0 f.name (k + 1) = cleaned0 ++ [(f.name, k + 1)] :=
        dictSet_fresh cleaned0 f.name (k + 1)
          (fun p hp => hdisj p hp f (List.mem_cons_self f rest))
      rw [hdict]
      have hdisj2 : ∀ p ∈ cleaned0 ++ [(f.name, k + 1)], ∀ g ∈ rest, p.1 ≠ g.name := by
        intro p hp g hg
        rcases List.mem_append.mp hp with h1 | h1
        · exact hdisj p h1 g (List.mem_cons_of_mem f hg)
        · rw [List.mem_singleton.mp h1]
          intro he
          apply hfnotin
          have he2 : f.name = g.name := he
          rw [he2]
          exact List.mem_map_of_mem UFile.name hg
      rw [ih (fs0 ++ [k + 1]) (k + 2) (cleaned0 ++ [(f.name, k + 1)]) hfs2 hdisj2 hndrest]
      congr 1
      · congr 1
        · simp [outPaths, List.append_assoc]
        · simp only [List.length_cons]
          omega
      · simp [succPairs, hff, List.append_assoc]

theorem foldl_fsRemove (vs : List Nat) : ∀ (s : Sys),
    vs.foldl fsRemove s = ⟨s.fs.filter (fun p => !(vs.contains p)), s.fresh⟩ := by
  induction vs with
  | nil =>
    intro s
    cases s
    simp
  | cons v vs ih =>
    intro s
    rw [List.foldl_cons]
    have hrm : fsRemove s v = ⟨s.fs.filter (fun q => q != v), s.fresh⟩ := rfl
    rw [hrm, ih]
    congr 1
    rw [List.filter_filter]
    apply List.filter_congr
    intro p _
    by_cases h : p = v
    · subst h
      simp
    · simp [h]

theorem outPaths_lb : ∀ (files : List UFile) (k : Nat), ∀ p ∈ outPaths k files, k + 1 ≤ p := by
  intro files
  induction files with
  | nil =>
    intro k p hp
    simp [outPaths] at hp
  | cons f rest ih =>
    intro k p hp
    simp only [outPaths] at hp
    rcases List.mem_cons.mp hp with h | h
    · omega
    · have := ih (k + 2) p h
      omega

theorem succPairs_snd_lb : ∀ (files : List UFile) (k : Nat),
    ∀ p ∈ (succPairs k files).map Prod.snd, k + 1 ≤ p := by
  intro files
  induction files with
  | nil =>
    intro k p hp
    simp [succPairs] at hp
  | cons f rest ih =>
    intro k p hp
    simp only [succPairs, List.map_append, List.mem_append] at hp
    rcases hp with h | h
    · cases hff : fileFails f with
      | true =>
        rw [hff] at h
        simp at h
      | false =>
        rw [hff] at h
        simp at h
        omega
    · have := ih (k + 2) p h
      omega

theorem outPaths_filter_leak : ∀ (files : List UFile) (k : Nat),
    (outPaths k files).filter
      (fun p => !(((succPairs k files).map Prod.snd).contains p)) = leakedPaths k files := by
  intro files
  induction files with
  | nil => intro k; rfl
  | cons f rest ih =>
    intro k
    cases hff : fileFails f with
    | true =>
      have hsp : succPairs k (f :: rest) = succPairs (k + 2) rest := by
        simp [succPairs, hff]
      have hlp : leakedPaths k (f :: rest) = (k + 1) :: leakedPaths (k + 2) rest := by
        simp [leakedPaths, hff]
      have hop : outPaths k (f :: rest) = (k + 1) :: outPaths (k + 2) rest := rfl
      rw [hsp, hlp, hop, List.filter_cons]
      have hnc : (((succPairs (k + 2) rest).map Prod.snd).contains (k + 1)) = false := by
        cases hc : ((succPairs (k + 2) rest).map Prod.snd).contains (k + 1) with
        | false => rfl
        | true =>
          have hm : (k + 1) ∈ (succPairs (k + 2) rest).map Prod.snd := by simpa using hc
          have := succPairs_snd_lb rest (k + 2) _ hm
          omega
      rw [hnc]
      simp only [Bool.not_false]
      rw [ih (k + 2)]
      simp
    | false =>
      have hsp : succPairs k (f :: rest) = (f.name, k + 1) :: succPairs (k + 2) rest := by
        simp [succPairs, hff]
      have hlp : leakedPaths k (f :: rest) = leakedPaths (k + 2) rest := by
        simp [leakedPaths, hff]
      have hop : outPaths k (f :: rest) = (k + 1) :: outPaths (k + 2) rest := rfl
      rw [hsp, hlp, hop, List.filter_cons]
      have hc1 : ((((f.name, k + 1) :: succPairs (k + 2) rest).map Prod.snd).contains (k + 1)) =
          true := by
        simp
      rw [hc1]
      simp only [Bool.not_true, if_neg (by exact Bool.false_ne_true)]
      rw [List.filter_congr ?_, ih (k + 2)]
      intro p hp
      have hlb := outPaths_lb rest (k + 2) p hp
      simp only [List.map_cons, List.contains_cons]
      have : (p == k + 1) = false := by
        simp only [beq_eq_false_iff_ne, ne_eq]
        omega
      rw [this]
      simp

/-- C9 is false as stated: a single target file whose stream fails leaves
its partial cleaned-output temp file (path 1) on disk after the entire run
— only the saved input copy (path 0) was deleted in the `finally` block,
and the failed file's output path was never entered into `cleaned_paths`,
so the end-of-run cleanup does not remove it either. -/
theorem C9_counterexample :
    (runPipeline tldNull ⟨[], [], []⟩ [⟨"bad", ["Email"], [none]⟩]).fs = [1] := by
  decide

/-- C9 (amended): for distinctly named uploads, every file's saved input
copy is deleted when its processing completes (success or failure), and a
successful file's output temp is deleted by the end-of-run cleanup after
the archive is built; but a failed file's partial output temp is never
deleted — after the whole run the remaining temp paths are exactly the
output temps of the failed files. -/
theorem C9_amended_temp_lifecycle (tld : String → TldExtractResult) (sup : Suppression)
    (files : List UFile) (hnd : (files.map UFile.name).Nodup) :
    (runPipeline tld sup files).fs = leakedPaths 0 files := by
  unfold runPipeline
  rw [processFilesSys_spec tld sup files [] 0 [] (by intro p hp; simp at hp)
    (by intro p hp g _; simp at hp) hnd]
  simp only []
  rw [foldl_fsRemove]
  simp only [List.nil_append]
  exact outPaths_filter_leak files 0

theorem C9_witness :
    (runPipeline tldNull ⟨[], [], []⟩
      [⟨"a", ["Email"], [some [[some "x"]]]⟩, ⟨"b", ["Email"], [none]⟩]).fs =
      leakedPaths 0 [⟨"a", ["Email"], [some [[some "x"]]]⟩, ⟨"b", ["Email"], [none]⟩] :=
  C9_amended_temp_lifecycle tldNull ⟨[], [], []⟩
    [⟨"a", ["Email"], [some [[some "x"]]]⟩, ⟨"b", ["Email"], [none]⟩] (by decide)
